import Mathlib

/-!
Shallow embedding of the chess rules engine of `bevy_chess`
(`src/piece.rs`, `src/board.rs`, `src/fen.rs`, `src/step.rs`,
`src/game_tree.rs`), together with theorems settling the frozen claims
about the natural-language specification.

Modelling conventions:
* Rust `usize` is modelled as `Nat`; `isize` as `Int`.
* The 8×8 piece grid `Pieces = Vec<Vec<Option<Piece>>>` is modelled as
  `List (List (Option Piece))`, indexed `pieces[x][y]` exactly as in the
  source.  Rust indexing out of range panics; in the pure move engine every
  index reached on an accepted move is in range, and out-of-range reads are
  modelled as absence (`none`) / out-of-range writes as no-ops.  In the two
  parsers (`read_fen`, `GameTree::from_string`) a potential panic is
  observable behaviour, and there it is modelled explicitly by
  `Except.error ()`.
* Rust `String` values are modelled as `List Char`.
* `wrapping_add` in `add_offset` is modelled by integer addition truncated
  with `Int.toNat`; every call site keeps the result strictly between two
  in-range coordinates, so the wrap-around branch is never exercised.
-/

namespace BevyChess

/-- `PieceRole` from `src/piece.rs`. -/
inductive PieceRole where
  | Pawn | Rook | Knight | Bishop | Queen | King
deriving DecidableEq, Repr

/-- `PieceColor` from `src/piece.rs`. -/
inductive PieceColor where
  | White | Black
deriving DecidableEq, Repr

/-- `PieceColor::flip` from `src/piece.rs`. -/
def PieceColor.flip : PieceColor → PieceColor
  | .White => .Black
  | .Black => .White

/-- `Piece` from `src/piece.rs`. -/
structure Piece where
  piece_role : PieceRole
  piece_color : PieceColor
deriving DecidableEq, Repr

/-- `Pieces` from `src/piece.rs`: the 8×8 grid, outer index = file (x),
inner index = rank (y). -/
abbrev Pieces := List (List (Option Piece))

/-- `Pieces::new()`: an 8×8 grid of empty squares. -/
def Pieces.new : Pieces := List.replicate 8 (List.replicate 8 none)

/-- Read `pieces[x][y]`.  Out-of-range reads (a Rust panic) yield `none`;
no call site on an accepted move is out of range. -/
def pieceAt (g : Pieces) (x y : Nat) : Option Piece :=
  ((g[x]?).bind (fun row => row[y]?)).getD none

/-- Write `pieces[x][y] = v`.  Out-of-range writes (a Rust panic) are
no-ops; no call site on an accepted move is out of range. -/
def setPiece (g : Pieces) (x y : Nat) (v : Option Piece) : Pieces :=
  match g[x]? with
  | none => g
  | some row => g.set x (row.set y v)

/-- `if let Some(p) = &mut pieces[x][y] { ... }`: apply `f` to the piece at
`(x, y)` when present. -/
def mapPieceAt (g : Pieces) (x y : Nat) (f : Piece → Piece) : Pieces :=
  match pieceAt g x y with
  | some p => setPiece g x y (some (f p))
  | none => g

/-- `Board` from `src/board.rs`.  The four castling flags are, in order,
white king-side, white queen-side, black king-side, black queen-side. -/
structure Board where
  pieces : Pieces
  active_color : PieceColor
  castling_availability : Bool × Bool × Bool × Bool
  en_passant_target : Option (Nat × Nat)
  halfmove : Nat
  fullmove : Nat
deriving DecidableEq, Repr

/-- `Step` from `src/board.rs` (field `from` is a Lean keyword, hence
`fromSq`/`toSq`). -/
structure Step where
  fromSq : Nat × Nat
  toSq : Nat × Nat
deriving DecidableEq, Repr

/-- `BoardResult` from `src/board.rs`. -/
inductive BoardResult where
  | Winner (c : PieceColor)
  | Draw
deriving DecidableEq, Repr

/-- `abs_and_sign` from `src/board.rs`. -/
def abs_and_sign (num : Int) : Int × Int :=
  ((num.natAbs : Int), num.sign)

/-- `add_offset` from `src/board.rs` (`from.wrapping_add(delta as usize)`),
modelled by truncated integer addition; see the module comment. -/
def add_offset (fromC : Nat) (delta : Int) : Nat :=
  ((fromC : Int) + delta).toNat

/-- The `for i in 1..n` emptiness scan shared by the Bishop/Rook/Queen arms
of `can_move_pre`: all squares strictly between `from` and `to` are empty. -/
def pathClear (g : Pieces) (from_x from_y : Nat) (dx_sig dy_sig : Int) (n : Int) : Bool :=
  (List.range (n.toNat - 1)).all fun k =>
    (pieceAt g (add_offset from_x (dx_sig * ((k : Int) + 1)))
              (add_offset from_y (dy_sig * ((k : Int) + 1)))).isNone

/-- `can_move_pre` from `src/board.rs`: pseudo-legal movement test, ignoring
turn order, castling and check. -/
def can_move_pre (board : Board) (step : Step) : Bool :=
  let (from_x, from_y) := step.fromSq
  let (to_x, to_y) := step.toSq
  match pieceAt board.pieces from_x from_y with
  | none => false
  | some piece =>
    let friendly : Bool :=
      match pieceAt board.pieces to_x to_y with
      | some tp => tp.piece_color == piece.piece_color
      | none => false
    if friendly then false
    else
      let dx : Int := (to_x : Int) - (from_x : Int)
      let dy : Int := (to_y : Int) - (from_y : Int)
      let (dx_val, dx_sig) := abs_and_sign dx
      let (dy_val, dy_sig) := abs_and_sign dy
      match piece.piece_role with
      | .Bishop =>
        if dx_val == dy_val then
          pathClear board.pieces from_x from_y dx_sig dy_sig dx_val
        else false
      | .Pawn =>
        let forward_dir : Int := match piece.piece_color with
          | .White => 1
          | .Black => -1
        if dx == 0 then
          if dy == forward_dir && (pieceAt board.pieces to_x to_y).isNone then true
          else
            let start_row : Nat := match piece.piece_color with
              | .White => 1
              | .Black => 6
            if from_y == start_row && dy == 2 * forward_dir && dx == 0 &&
               (pieceAt board.pieces to_x (add_offset from_y forward_dir)).isNone &&
               (pieceAt board.pieces to_x to_y).isNone then true
            else false
        else if dy == forward_dir && dx_val == 1 then
          (pieceAt board.pieces to_x to_y).isSome
            || board.en_passant_target == some (to_x, to_y)
        else false
      | .Rook =>
        if dx_val == 0 || dy_val == 0 then
          pathClear board.pieces from_x from_y dx_sig dy_sig (dx_val + dy_val)
        else false
      | .Knight =>
        decide (0 < dx_val) && decide (dx_val < 3) && dx_val + dy_val == 3
      | .Queen =>
        if dx_val == dy_val || dx_val == 0 || dy_val == 0 then
          pathClear board.pieces from_x from_y dx_sig dy_sig (max dx_val dy_val)
        else false
      | .King =>
        decide (dx_val ≤ 1) && decide (dy_val ≤ 1)

/-- `act_move_pre` from `src/board.rs`: relocate the piece, flip the side to
move, bump the counters, clear the en-passant target. -/
def act_move_pre (board : Board) (step : Step) : Board :=
  let (from_x, from_y) := step.fromSq
  let (to_x, to_y) := step.toSq
  let v := pieceAt board.pieces from_x from_y
  let g := setPiece board.pieces from_x from_y none
  let g := setPiece g to_x to_y v
  let ac := board.active_color.flip
  { board with
    pieces := g
    active_color := ac
    halfmove := board.halfmove + 1
    fullmove := if ac = .White then board.fullmove + 1 else board.fullmove
    en_passant_target := none }

/-- `piece_safe` from `src/board.rs`: no piece of either colour can
pseudo-legally move onto the square. -/
def piece_safe (board : Board) (sq : Nat × Nat) : Bool :=
  (List.range 8).all fun i => (List.range 8).all fun j =>
    ! can_move_pre board { fromSq := (i, j), toSq := sq }

/-- `king_pos` from `src/board.rs`. -/
def king_pos (board : Board) (c : PieceColor) : Option (Nat × Nat) :=
  (List.range 8).findSome? fun i => (List.range 8).findSome? fun j =>
    match pieceAt board.pieces i j with
    | some piece =>
      if piece.piece_role = .King ∧ piece.piece_color = c then some (i, j) else none
    | none => none

/-- `king_safe` from `src/board.rs`. -/
def king_safe (board : Board) (c : PieceColor) : Bool :=
  match king_pos board c with
  | none => true
  | some kp => piece_safe board kp

/-- `try_castle_single` from `src/board.rs`. -/
def try_castle_single (board : Board) (step : Step) (passby : List (Nat × Nat))
    (king_passby : List (Nat × Nat)) (rook_step : Step) : Option Board :=
  let (from_x, from_y) := step.fromSq
  if ! piece_safe board step.fromSq then none
  else if passby.any (fun ij => (pieceAt board.pieces ij.1 ij.2).isSome) then none
  else if king_passby.any (fun ij =>
      let v := pieceAt board.pieces from_x from_y
      let g := setPiece board.pieces from_x from_y none
      let g := setPiece g ij.1 ij.2 v
      ! piece_safe { board with pieces := g } ij) then none
  else
    let b := act_move_pre board step
    let v := pieceAt b.pieces rook_step.fromSq.1 rook_step.fromSq.2
    let g := setPiece b.pieces rook_step.fromSq.1 rook_step.fromSq.2 none
    let g := setPiece g rook_step.toSq.1 rook_step.toSq.2 v
    let ca := board.castling_availability
    some { b with
      pieces := g
      castling_availability :=
        match board.active_color with
        | .White => (false, false, ca.2.2.1, ca.2.2.2)
        | .Black => (ca.1, ca.2.1, false, false) }

/-- `try_castle` from `src/board.rs`: the four fixed patterns. -/
def try_castle (board : Board) (step : Step) : Option Board :=
  let (from_x, from_y) := step.fromSq
  let (to_x, to_y) := step.toSq
  let (wk, wq, bk, bq) := board.castling_availability
  if from_x == 4 && to_x == 6 && from_y == 0 && to_y == 0 && wk then
    try_castle_single board step [(5, 0), (6, 0)] [(5, 0), (6, 0)]
      { fromSq := (7, 0), toSq := (5, 0) }
  else if from_x == 4 && to_x == 2 && from_y == 0 && to_y == 0 && wq then
    try_castle_single board step [(3, 0), (2, 0), (1, 0)] [(3, 0), (2, 0)]
      { fromSq := (0, 0), toSq := (3, 0) }
  else if from_x == 4 && to_x == 6 && from_y == 7 && to_y == 7 && bk then
    try_castle_single board step [(5, 7), (6, 7)] [(5, 7), (6, 7)]
      { fromSq := (7, 7), toSq := (5, 7) }
  else if from_x == 4 && to_x == 2 && from_y == 7 && to_y == 7 && bq then
    try_castle_single board step [(3, 7), (2, 7), (1, 7)] [(3, 7), (2, 7)]
      { fromSq := (0, 7), toSq := (3, 7) }
  else none

/-- The grid effect of the pawn-specific block of `try_move`
(`src/board.rs` lines 312-329): en-passant removal, then promotion to
Queen. -/
def pawn_pieces (board : Board) (step : Step) (g : Pieces) : Pieces :=
  let (to_x, to_y) := step.toSq
  let g :=
    if board.en_passant_target == some step.toSq then
      match board.active_color with
      | .White => setPiece g to_x (to_y - 1) none
      | .Black => setPiece g to_x (to_y + 1) none
    else g
  if to_y == 0 || to_y == 7 then
    mapPieceAt g to_x to_y (fun p => { p with piece_role := .Queen })
  else g

/-- The en-passant-target effect of the pawn-specific block of `try_move`:
the target becomes the skipped square on a double push, and is otherwise
left as `act_move_pre` produced it. -/
def pawn_ep (step : Step) (ep : Option (Nat × Nat)) : Option (Nat × Nat) :=
  let (to_x, to_y) := step.toSq
  if to_y == step.fromSq.2 + 2 then some (to_x, step.fromSq.2 + 1)
  else if step.fromSq.2 == to_y + 2 then some (to_x, to_y + 1)
  else ep

/-- The pawn-specific block of `try_move` (`src/board.rs` lines 312-329):
en-passant removal, en-passant target setting, promotion to Queen.  The
source interleaves the grid writes and the target write on the same
mutable board; they touch disjoint fields, so the block is their
composition. -/
def pawn_block (board : Board) (step : Step) (b : Board) : Board :=
  { b with
    pieces := pawn_pieces board step b.pieces
    en_passant_target := pawn_ep step b.en_passant_target }

/-- The castling-rights bookkeeping block of `try_move` (`src/board.rs`
lines 332-353), with the source's match patterns verbatim — note that the
rook-square patterns `(0, 7)` and `(7, 0)` are in (x, y) order, i.e. a8 and
h1 respectively. -/
def rights_update (board : Board) (step : Step) (role : PieceRole)
    (ca0 : Bool × Bool × Bool × Bool) : Bool × Bool × Bool × Bool :=
  let ca :=
    if role == .King then
      match board.active_color with
      | .White => (false, false, ca0.2.2.1, ca0.2.2.2)
      | .Black => (ca0.1, ca0.2.1, false, false)
    else ca0
  let ca :=
    if role == .Rook then
      if step.fromSq == ((0 : Nat), (7 : Nat)) then
        (false, ca.2.1, ca.2.2.1, ca.2.2.2)
      else if step.fromSq == ((0 : Nat), (0 : Nat)) then
        (ca.1, false, ca.2.2.1, ca.2.2.2)
      else if step.fromSq == ((7 : Nat), (7 : Nat)) then
        (ca.1, ca.2.1, false, ca.2.2.2)
      else if step.fromSq == ((7 : Nat), (0 : Nat)) then
        (ca.1, ca.2.1, ca.2.2.1, false)
      else ca
    else ca
  if step.toSq == ((0 : Nat), (7 : Nat)) then
    (false, ca.2.1, ca.2.2.1, ca.2.2.2)
  else if step.toSq == ((0 : Nat), (0 : Nat)) then
    (ca.1, false, ca.2.2.1, ca.2.2.2)
  else if step.toSq == ((7 : Nat), (7 : Nat)) then
    (ca.1, ca.2.1, false, ca.2.2.2)
  else if step.toSq == ((7 : Nat), (0 : Nat)) then
    (ca.1, ca.2.1, ca.2.2.1, false)
  else ca

def rights_block (board : Board) (step : Step) (role : PieceRole) (b : Board) : Board :=
  { b with castling_availability := rights_update board step role b.castling_availability }

/-- The `res` computed by `try_move` (`src/board.rs` lines 286-359), before
the final self-check gate. -/
def try_move_res (board : Board) (step : Step) : Option Board :=
  let (from_x, from_y) := step.fromSq
  let (to_x, to_y) := step.toSq
  match pieceAt board.pieces from_x from_y with
  | none => none
  | some piece =>
    if piece.piece_color ≠ board.active_color then none
    else
      let friendly : Bool :=
        match pieceAt board.pieces to_x to_y with
        | some tp => tp.piece_color == piece.piece_color
        | none => false
      if friendly then none
      else if can_move_pre board step then
        let role := piece.piece_role
        let b := act_move_pre board step
        let b := if role == .Pawn then pawn_block board step b else b
        some (rights_block board step role b)
      else
        try_castle board step

/-- `try_move` from `src/board.rs`: `try_move_res` followed by the
self-check gate (the mover's king must exist and be safe afterwards). -/
def try_move (board : Board) (step : Step) : Option Board :=
  match try_move_res board step with
  | none => none
  | some b =>
    match king_pos b b.active_color.flip with
    | some kp => if piece_safe b kp then some b else none
    | none => none

/-- `all_targets` from `src/board.rs`. -/
def all_targets (board : Board) (fq : Nat × Nat) : List (Nat × Nat) :=
  (List.range 8).flatMap fun to_x =>
    (List.range 8).filterMap fun to_y =>
      (try_move board { fromSq := fq, toSq := (to_x, to_y) }).map fun _ => (to_x, to_y)

/-- `all_move` from `src/board.rs`. -/
def all_move (board : Board) : List Step :=
  (List.range 8).flatMap fun from_x =>
    (List.range 8).flatMap fun from_y =>
      match pieceAt board.pieces from_x from_y with
      | some piece =>
        if piece.piece_color == board.active_color then
          (all_targets board (from_x, from_y)).map fun t =>
            { fromSq := (from_x, from_y), toSq := t }
        else []
      | none => []

/-- `end_game` from `src/board.rs`. -/
def end_game (board : Board) : Option BoardResult :=
  if (all_move board).isEmpty then
    match king_pos board board.active_color with
    | some kp =>
      if piece_safe board kp then some .Draw
      else some (.Winner board.active_color.flip)
    | none => some .Draw
  else none

/-! ## FEN codec (`src/fen.rs`) -/

/-- `INITIAL_FEN` from `src/fen.rs`. -/
def INITIAL_FEN : List Char :=
  "rnbqkbnr/pppppppp/8/8/8/8/PPPPPPPP/RNBQKBNR w KQkq - 0 1".toList

/-- `char_to_role` from `src/fen.rs`. -/
def char_to_role (c : Char) : Option PieceRole :=
  match c.toLower with
  | 'k' => some .King
  | 'q' => some .Queen
  | 'r' => some .Rook
  | 'b' => some .Bishop
  | 'n' => some .Knight
  | 'p' => some .Pawn
  | _ => none

/-- `piece_to_char` from `src/fen.rs` ('1' marks an empty square). -/
def piece_to_char (piece : Option Piece) : Char :=
  match piece with
  | some p =>
    let c : Char :=
      match p.piece_role with
      | .Pawn => 'p'
      | .Rook => 'r'
      | .Knight => 'n'
      | .Bishop => 'b'
      | .Queen => 'q'
      | .King => 'k'
    match p.piece_color with
    | .White => c.toUpper
    | .Black => c
  | none => '1'

/-- Whitespace, for the model of Rust `split_whitespace` / `trim`. -/
def isWs (c : Char) : Bool := c == ' ' || c == '\t' || c == '\n' || c == '\r'

/-- Accumulator-style worker for `split_whitespace`. -/
def swAux : List Char → List Char → List (List Char)
  | [], acc => if acc = [] then [] else [acc.reverse]
  | c :: rest, acc =>
    if isWs c then
      if acc = [] then swAux rest [] else acc.reverse :: swAux rest []
    else swAux rest (c :: acc)

/-- Rust `str::split_whitespace`: the non-empty maximal runs of
non-whitespace characters. -/
def split_whitespace (s : List Char) : List (List Char) := swAux s []

/-- Fuelled worker for `natToChars` (structural recursion keeps the
definition kernel-reducible; the fuel is always sufficient). -/
def natToCharsAux : Nat → Nat → List Char
  | 0, _ => []
  | fuel + 1, n =>
    if n < 10 then [Char.ofNat ('0'.toNat + n)]
    else natToCharsAux fuel (n / 10) ++ [Char.ofNat ('0'.toNat + n % 10)]

/-- Decimal digits of a natural number, most significant first: the model
of Rust's `{}` formatting of a `usize`. -/
def natToChars (n : Nat) : List Char := natToCharsAux (n + 1) n

/-- Rust `str::parse::<usize>()`: optional `+` sign, then one or more
decimal digits.  (A 64-bit overflow failure is not modelled; `usize` is
modelled as unbounded `Nat`.) -/
def parseNat (s : List Char) : Option Nat :=
  let digits := match s with
    | c :: rest => if c = '+' then rest else s
    | [] => s
  if digits ≠ [] ∧ digits.all Char.isDigit then
    some (digits.foldl (fun acc c => acc * 10 + (c.toNat - '0'.toNat)) 0)
  else none

/-- The placement-parsing loop of `read_fen` (`src/fen.rs` lines 48-74).
State: grid, current `row`, current `col`.  Writing a piece with
`col ≥ 8` indexes `board[col]` out of range in the source — a panic,
modelled as `Except.error ()`.  (`row` starts at 7 and only ever
decrements while positive, so `board[col][row]`'s inner index is always in
range.) -/
def parsePlacement : List Char → Pieces → Nat → Nat → Except Unit Pieces
  | [], g, _, _ => .ok g
  | c :: rest, g, row, col =>
    if c = ' ' then .ok g
    else if c = '/' then
      if row = 0 then .ok g
      else parsePlacement rest g (row - 1) 0
    else if c.isDigit then
      parsePlacement rest g row (col + (c.toNat - '0'.toNat))
    else
      match char_to_role c with
      | some role =>
        if col < 8 then
          parsePlacement rest
            (setPiece g col row
              (some { piece_role := role,
                      piece_color := if c.isLower then .Black else .White }))
            row (col + 1)
        else .error ()
      | none => parsePlacement rest g row col

/-- `read_fen` from `src/fen.rs`.  Total in the source's signature but able
to panic (out-of-range placement column; en-passant field shorter than two
characters or with a non-digit rank): panics are modelled as
`Except.error ()`.  The subtraction `c - 'a'` on the en-passant file is
modelled as truncated `Nat` subtraction. -/
def read_fen (fen : List Char) : Except Unit Board := do
  let parts := split_whitespace fen
  let piece_placement := parts.getD 0 []
  let active_color := parts.getD 1 ['w']
  let castling := parts.getD 2 ['K', 'Q', 'k', 'q']
  let en_passant := parts.getD 3 ['-']
  let halfmove := parts.getD 4 ['0']
  let fullmove := parts.getD 5 ['1']
  let g ← parsePlacement piece_placement Pieces.new 7 0
  let ac : PieceColor :=
    if active_color = ['w'] then .White
    else if active_color = ['b'] then .Black
    else .White
  let ca := (castling.contains 'K', castling.contains 'Q',
             castling.contains 'k', castling.contains 'q')
  let ep : Option (Nat × Nat) ←
    if en_passant = ['-'] then pure none
    else do
      let c0 ← match en_passant.get? 0 with
        | some c => pure c
        | none => Except.error ()
      let c1 ← match en_passant.get? 1 with
        | some c => pure c
        | none => Except.error ()
      let d ← if c1.isDigit then pure (c1.toNat - '0'.toNat) else Except.error ()
      pure (some (c0.toNat - 'a'.toNat, d - 1))
  let hm := (parseNat halfmove).getD 0
  let fm := (parseNat fullmove).getD 1
  .ok { pieces := g
        active_color := ac
        castling_availability := ca
        en_passant_target := ep
        halfmove := hm
        fullmove := fm }

/-- Fuelled worker for `compress` (structural recursion keeps the
definition kernel-reducible; the fuel is always sufficient). -/
def compressAux : Nat → List Char → List Char
  | 0, l => l
  | fuel + 1, l =>
    match l with
    | [] => []
    | c :: rest =>
      if c = '1' then
        let ones := rest.takeWhile (fun d => d = '1')
        let n := ones.length + 1
        (if 2 ≤ n then natToChars n else ['1'])
          ++ compressAux fuel (rest.dropWhile (fun d => d = '1'))
      else c :: compressAux fuel rest

/-- The model of the regex replacement `1{2,} ↦ decimal run length` used by
`write_fen` to compress runs of empty squares. -/
def compress (l : List Char) : List Char := compressAux l.length l

/-- `Vec::join("/")` on the rank strings. -/
def joinRanks : List (List Char) → List Char
  | [] => []
  | [r] => r
  | r :: rest => r ++ '/' :: joinRanks rest

/-- The characters of one rank of a board, files 0 to 7. -/
def rankChars (b : Board) (j : Nat) : List Char :=
  (List.range 8).map fun i => piece_to_char (pieceAt b.pieces i j)

/-- The uncompressed placement text of a board: ranks 7 down to 0, each the
eight `piece_to_char` characters, joined by `/`. -/
def placementRaw (b : Board) : List Char :=
  joinRanks ((List.range 8).reverse.map fun j => rankChars b j)

/-- The side-to-move field of `write_fen`. -/
def activeChars : PieceColor → List Char
  | .White => ['w']
  | .Black => ['b']

/-- The castling field of `write_fen`. -/
def castlingChars (wk wq bk bq : Bool) : List Char :=
  let s := (if wk then ['K'] else []) ++ (if wq then ['Q'] else [])
    ++ (if bk then ['k'] else []) ++ (if bq then ['q'] else [])
  if s = [] then ['-'] else s

/-- The en-passant field of `write_fen`. -/
def epChars : Option (Nat × Nat) → List Char
  | some (file, rank) => [Char.ofNat ('a'.toNat + file), Char.ofNat ('1'.toNat + rank)]
  | none => ['-']

/-- `write_fen` from `src/fen.rs`. -/
def write_fen (b : Board) : List Char :=
  let (wk, wq, bk, bq) := b.castling_availability
  compress (placementRaw b) ++ ' ' :: activeChars b.active_color
    ++ ' ' :: castlingChars wk wq bk bq ++ ' ' :: epChars b.en_passant_target
    ++ ' ' :: natToChars b.halfmove ++ ' ' :: natToChars b.fullmove

/-! ## SAN codec (`src/step.rs`) -/

/-- `piece_name` from `src/step.rs`. -/
def piece_name (piecerole : PieceRole) : List Char :=
  match piecerole with
  | .Pawn => []
  | .Rook => ['R']
  | .Knight => ['N']
  | .Bishop => ['B']
  | .Queen => ['Q']
  | .King => ['K']

/-- `name_to_role` from `src/step.rs`.  Only ever called on a capture of
the regex group `[KQRBN]?`; the catch-all arm is `unreachable!()` in the
source and never exercised. -/
def name_to_role (name : List Char) : PieceRole :=
  match name with
  | ['K'] => .King
  | ['Q'] => .Queen
  | ['R'] => .Rook
  | ['B'] => .Bishop
  | ['N'] => .Knight
  | _ => .Pawn

/-- `coordinate` from `src/step.rs` (byte indexing; only ever called on the
regex group `[a-h][1-8]`, hence always two characters). -/
def coordinate (s : List Char) : Nat × Nat :=
  match s with
  | x :: y :: _ => (x.toNat - 'a'.toNat, y.toNat - '1'.toNat)
  | _ => (0, 0)

/-- `[a-h]` character class of the SAN regex. -/
def isFileChar (c : Char) : Bool := 'a' ≤ c && c ≤ 'h'

/-- `[1-8]` character class of the SAN regex. -/
def isRankChar (c : Char) : Bool := '1' ≤ c && c ≤ '8'

/-- `[KQRBN]` character class of the SAN regex. -/
def isRoleChar (c : Char) : Bool :=
  c == 'K' || c == 'Q' || c == 'R' || c == 'B' || c == 'N'

/-- `[QRBN]` promotion class of the SAN regex. -/
def isPromoChar (c : Char) : Bool := c == 'Q' || c == 'R' || c == 'B' || c == 'N'

/-- The tail `(?:=([QRBN]))?([+#]?)$` of the SAN regex, applied after the
destination square. -/
def tailAfterTarget : List Char → Bool
  | [] => true
  | [c] => c == '+' || c == '#'
  | ['=', q] => isPromoChar q
  | ['=', q, c] => isPromoChar q && (c == '+' || c == '#')
  | _ => false

/-- The fragment `(x?)([a-h][1-8])(?:=([QRBN]))?([+#]?)$` of the SAN regex;
returns the captured destination square (group 4). -/
def afterDisambig (l : List Char) : Option (List Char) :=
  let noX : List Char → Option (List Char) := fun m =>
    match m with
    | f :: r :: m2 =>
      if isFileChar f && isRankChar r && tailAfterTarget m2 then some [f, r] else none
    | _ => none
  match l with
  | 'x' :: m =>
    match noX m with
    | some t => some t
    | none => noX l
  | _ => noX l

/-- The fragment `([a-h]?[1-8]?)(x?)([a-h][1-8])(?:=([QRBN]))?([+#]?)$` of
the SAN regex, with the greedy backtracking order of the optional
disambiguation group; returns the captured destination square. -/
def afterRole (l : List Char) : Option (List Char) :=
  match l with
  | c1 :: c2 :: m =>
    (if isFileChar c1 && isRankChar c2 then afterDisambig m else none) <|>
    (if isFileChar c1 then afterDisambig (c2 :: m) else none) <|>
    (if isRankChar c1 then afterDisambig (c2 :: m) else none) <|>
    afterDisambig l
  | [c1] =>
    (if isFileChar c1 then afterDisambig [] else none) <|>
    (if isRankChar c1 then afterDisambig [] else none) <|>
    afterDisambig l
  | [] => none

/-- The SAN regex
`^([KQRBN]?)([a-h]?[1-8]?)(x?)([a-h][1-8])(?:=([QRBN]))?([+#]?)$` of
`read_step`: returns the two captures the source uses, group 1 (role
letter) and group 4 (destination square). -/
def san_groups (s : List Char) : Option (List Char × List Char) :=
  match s with
  | c :: rest =>
    (if isRoleChar c then (afterRole rest).map (fun t => ([c], t)) else none) <|>
    (afterRole s).map (fun t => (([] : List Char), t))
  | [] => none

/-- `write_step` from `src/step.rs`: SAN encoding of a move.  The two
`unreachable!()` arms of the source (a missing origin piece after a
successful `try_move`, and a castling destination file other than 2 or 6)
are modelled by `none` / `[]`; neither is reachable. -/
def write_step (board : Board) (step : Step) : Option (List Char) :=
  match try_move board step with
  | none => none
  | some new_board =>
    match pieceAt board.pieces step.fromSq.1 step.fromSq.2 with
    | none => none
    | some piece =>
      let role := piece.piece_role
      let (from_x, from_y) := step.fromSq
      let (to_x, to_y) := step.toSq
      let name := piece_name role
      let target := Char.ofNat ('a'.toNat + to_x) :: natToChars (to_y + 1)
      let capture0 := (pieceAt board.pieces to_x to_y).isSome
      let check := ! king_safe new_board new_board.active_color
      let checkmate :=
        match end_game new_board with
        | some (.Winner _) => true
        | some .Draw => false
        | none => false
      let check_string : List Char :=
        if checkmate then ['#'] else if check then ['+'] else []
      if role == .King && (try_castle board step).isSome then
        let castle : List Char :=
          if to_x == 6 then ['O', '-', 'O']
          else if to_x == 2 then ['O', '-', 'O', '-', 'O']
          else []
        some (castle ++ check_string)
      else
        let capture := capture0
          || (role == .Pawn && board.en_passant_target == some step.toSq)
        let promotion : List Char :=
          if role == .Pawn && (to_y == 0 || to_y == 7) then ['=', 'Q'] else []
        let ambiguous := (from_x, from_y) ::
          ((List.range 8).flatMap fun fx =>
            (List.range 8).filterMap fun fy =>
              if (fx, fy) = (from_x, from_y) then none
              else match pieceAt board.pieces fx fy with
                | some p =>
                  if p == piece
                     && (try_move board { fromSq := (fx, fy), toSq := step.toSq }).isSome
                  then some (fx, fy) else none
                | none => none)
        let disambiguate : List Char :=
          if ambiguous.length == 1 then
            if capture && role == .Pawn then [Char.ofNat ('a'.toNat + from_x)] else []
          else if (ambiguous.filter (fun q => q.1 == from_x)).length == 1 then
            [Char.ofNat ('a'.toNat + from_x)]
          else if (ambiguous.filter (fun q => q.2 == from_y)).length == 1 then
            natToChars (from_y + 1)
          else
            Char.ofNat ('a'.toNat + from_x) :: natToChars (from_y + 1)
        some (name ++ disambiguate ++ (if capture then ['x'] else [])
          ++ target ++ promotion ++ check_string)

/-- `read_step` from `src/step.rs`: SAN decoding.  The Black king-side
castling arm builds `Step { from: (4, 7), to: (2, 7) }` exactly as the
source does (the White queen-side destination pattern). -/
def read_step (board : Board) (s : List Char) : Option Step :=
  let color := board.active_color
  if ['O', '-', 'O'].isPrefixOf s then
    let (wk, wq, bk, bq) := board.castling_availability
    let stepOpt : Option Step :=
      if ['O', '-', 'O', '-', 'O'].isPrefixOf s then
        match color with
        | .White => if !wq then none else some { fromSq := (4, 0), toSq := (2, 0) }
        | .Black => if !bq then none else some { fromSq := (4, 7), toSq := (2, 7) }
      else
        match color with
        | .White => if !wk then none else some { fromSq := (4, 0), toSq := (6, 0) }
        | .Black => if !bk then none else some { fromSq := (4, 7), toSq := (2, 7) }
    match stepOpt with
    | none => none
    | some step =>
      if write_step board step == some s then some step else none
  else
    match san_groups s with
    | none => none
    | some (roleStr, targetStr) =>
      let role := name_to_role roleStr
      let target := coordinate targetStr
      (List.range 8).findSome? fun fx =>
        (List.range 8).findSome? fun fy =>
          match pieceAt board.pieces fx fy with
          | some p =>
            if p.piece_color == color && p.piece_role == role then
              let step : Step := { fromSq := (fx, fy), toSq := target }
              if write_step board step == some s then some step else none
            else none
          | none => none

/-! ## Variation tree (`src/game_tree.rs`): the deserialization path -/

/-- `MoveData` from `src/game_tree.rs`. -/
structure MoveData where
  ply : Nat
  san : List Char
  color : PieceColor
deriving DecidableEq, Repr

/-- `GameTreeNode` from `src/game_tree.rs`. -/
structure GameTreeNode where
  board : Board
  sons : List (Step × Nat × MoveData)
  parent : Option Nat
deriving DecidableEq, Repr

/-- `GameTreeNode::new` from `src/game_tree.rs`. -/
def GameTreeNode.new (b : Board) : GameTreeNode :=
  { board := b, sons := [], parent := none }

/-- `GameTree` from `src/game_tree.rs`. -/
structure GameTree where
  nodes : List GameTreeNode
  root : Nat
  focus : Nat
deriving DecidableEq, Repr

/-- Rust `str::trim`. -/
def rustTrim (s : List Char) : List Char :=
  ((s.dropWhile isWs).reverse.dropWhile isWs).reverse

/-- Split a character list on a separator character; like Rust
`str::split`, empty pieces are kept. -/
def splitOnChar (sep : Char) : List Char → List (List Char)
  | [] => [[]]
  | c :: t =>
    match splitOnChar sep t with
    | h :: r => if c = sep then [] :: h :: r else (c :: h) :: r
    | [] => [[c]]

/-- Rust `str::lines`: split on `'\n'`, stripping one trailing `'\r'` from
each line; the empty string yields no lines. -/
def rustLines (s : List Char) : List (List Char) :=
  if s = [] then []
  else (splitOnChar '\n' s).map fun l =>
    if l.getLast? = some '\r' then l.dropLast else l

/-- `move_info.strip_prefix('(').and_then(|s| s.strip_suffix(')'))` from
`GameTree::from_string`. -/
def stripParens (s : List Char) : Option (List Char) :=
  match s with
  | '(' :: t =>
    if t.getLast? = some ')' then some t.dropLast else none
  | _ => none

/-- Split at the first occurrence of the two-character separator `", "`. -/
def findCommaSpace : List Char → Option (List Char × List Char)
  | [] => none
  | ',' :: ' ' :: t => some ([], t)
  | c :: t => (findCommaSpace t).map fun p => (c :: p.1, p.2)

/-- Rust `str::splitn(2, ", ")`. -/
def splitn2 (s : List Char) : List (List Char) :=
  match findCommaSpace s with
  | some (a, b) => [a, b]
  | none => [s]

/-- One `move_info` entry of `GameTree::from_string` (`src/game_tree.rs`
lines 119-146).  `Except.error ()` models a Rust panic (`tree.nodes[...]`
out of range, or the `write_step(...).unwrap()`); `.ok none` models the
source's `return None`; `.ok (some t)` continues with the updated tree. -/
def fromStringProcessMove (t : GameTree) (node_id : Nat) (move_info : List Char) :
    Except Unit (Option GameTree) :=
  match stripParens move_info with
  | none => .ok (some t)
  | some inner =>
    match splitn2 inner with
    | [p0, p1] =>
      (match parseNat p0 with
      | none => .ok none
      | some son_id =>
        let san := p1
        match t.nodes.get? node_id with
        | none => .error ()
        | some parentNode =>
          match read_step parentNode.board san with
          | none => .ok none
          | some step =>
            match try_move parentNode.board step with
            | none => .ok none
            | some board =>
              match t.nodes.get? son_id with
              | none => .error ()
              | some sonNode =>
                let t := { t with nodes := (t.nodes.set son_id
                  { sonNode with board := board, parent := some node_id }) }
                match t.nodes.get? node_id with
                | none => .error ()
                | some pn2 =>
                  match write_step pn2.board step with
                  | none => .error ()
                  | some sanW =>
                    .ok (some { t with nodes := (t.nodes.set node_id
                      { pn2 with sons := (pn2.sons ++
                        [(step, son_id,
                          { ply := pn2.board.fullmove, san := sanW,
                            color := pn2.board.active_color })]) }) }))
    | _ => .ok (some t)

/-- Fold `fromStringProcessMove` over the `|`-separated entries of one
line. -/
def fromStringProcessMoves (t : GameTree) (node_id : Nat) :
    List (List Char) → Except Unit (Option GameTree)
  | [] => .ok (some t)
  | mi :: rest =>
    match fromStringProcessMove t node_id mi with
    | .error _ => .error ()
    | .ok none => .ok none
    | .ok (some t2) => fromStringProcessMoves t2 node_id rest

/-- The per-line loop of `GameTree::from_string`: stops (keeping the tree)
once `node_id ≥ nodes_count`. -/
def fromStringProcessLines (t : GameTree) (cnt : Nat) (node_id : Nat) :
    List (List Char) → Except Unit (Option GameTree)
  | [] => .ok (some t)
  | line :: rest =>
    if cnt ≤ node_id then .ok (some t)
    else
      match fromStringProcessMoves t node_id (splitOnChar '|' line) with
      | .error _ => .error ()
      | .ok none => .ok none
      | .ok (some t2) => fromStringProcessLines t2 cnt (node_id + 1) rest

/-- `GameTree::from_string` from `src/game_tree.rs`.  `Except.error ()`
models a Rust panic, `.ok none` the source's `None`, `.ok (some t)` the
source's `Some(tree)`. -/
def gameTree_from_string (s : List Char) : Except Unit (Option GameTree) :=
  let lines := rustLines (rustTrim s)
  if lines.length < 4 || ¬ (lines.get? 0 = some "[chess game tree]".toList) then
    .ok none
  else
    let initial_fen := lines.getD 1 []
    let nodes_count := (parseNat (lines.getD 2 [])).getD 0
    let info_lines := lines.drop 3
    match read_fen initial_fen with
    | .error _ => .error ()
    | .ok b =>
      let t : GameTree :=
        { nodes := List.replicate nodes_count (GameTreeNode.new b), root := 0, focus := 0 }
      fromStringProcessLines t nodes_count 0 info_lines

/-! ## Decidability of `Except` equality (for concrete evaluations) -/

instance instDecEqExcept {e a : Type} [DecidableEq e] [DecidableEq a] :
    DecidableEq (Except e a) := fun x y =>
  match x, y with
  | .ok v, .ok w => if h : v = w then .isTrue (by rw [h]) else .isFalse (by simp [h])
  | .error v, .error w => if h : v = w then .isTrue (by rw [h]) else .isFalse (by simp [h])
  | .ok _, .error _ => .isFalse (by simp)
  | .error _, .ok _ => .isFalse (by simp)

/-! ## Concrete positions and inputs used by the claim theorems -/

/-- A black king on e8 and a black rook on h8, Black to move, only the
black king-side castling right set: black king-side castling is legal. -/
def bkBoard : Board :=
  { pieces := setPiece (setPiece Pieces.new 4 7 (some ⟨.King, .Black⟩)) 7 7
      (some ⟨.Rook, .Black⟩)
    active_color := .Black
    castling_availability := (false, false, true, false)
    en_passant_target := none
    halfmove := 0, fullmove := 1 }

/-- Like `bkBoard` but with a white king on a1: a two-sided position in
which black king-side castling is legal. -/
def c2Board : Board :=
  { pieces := setPiece (setPiece (setPiece Pieces.new 4 7 (some ⟨.King, .Black⟩)) 7 7
      (some ⟨.Rook, .Black⟩)) 0 0 (some ⟨.King, .White⟩)
    active_color := .Black
    castling_availability := (false, false, true, false)
    en_passant_target := none
    halfmove := 0, fullmove := 1 }

/-- White king e1, white rook h1, black king e8, all four castling rights
set, White to move. -/
def c3Board : Board :=
  { pieces := setPiece (setPiece (setPiece Pieces.new 4 0 (some ⟨.King, .White⟩)) 7 0
      (some ⟨.Rook, .White⟩)) 4 7 (some ⟨.King, .Black⟩)
    active_color := .White
    castling_availability := (true, true, true, true)
    en_passant_target := none
    halfmove := 0, fullmove := 1 }

/-- White king a1, black king h8, White to move, fullmove 1. -/
def c5Board : Board :=
  { pieces := setPiece (setPiece Pieces.new 0 0 (some ⟨.King, .White⟩)) 7 7
      (some ⟨.King, .Black⟩)
    active_color := .White
    castling_availability := (false, false, false, false)
    en_passant_target := none
    halfmove := 0, fullmove := 1 }

/-- A white pawn on e8 (loadable from FEN), a black pawn on g7, a white
king on a1, the black king-side castling flag set and the en-passant
target g8: `try_move (4,7)→(6,7)` is accepted through the castling branch
(the source never checks that the castling piece is a king), the pawn
lands on the en-passant target, and nothing is removed. -/
def c9Freak : Board :=
  { pieces := setPiece (setPiece (setPiece Pieces.new 4 7 (some ⟨.Pawn, .White⟩)) 6 6
      (some ⟨.Pawn, .Black⟩)) 0 0 (some ⟨.King, .White⟩)
    active_color := .White
    castling_availability := (false, false, true, false)
    en_passant_target := some (6, 7)
    halfmove := 0, fullmove := 1 }

/-- A genuine en-passant position: white pawn e5, black pawn d5, en-passant
target d6, White to move. -/
def c9Board : Board :=
  { pieces := setPiece (setPiece (setPiece (setPiece Pieces.new 0 0
      (some ⟨.King, .White⟩)) 7 7 (some ⟨.King, .Black⟩)) 4 4
      (some ⟨.Pawn, .White⟩)) 3 4 (some ⟨.Pawn, .Black⟩)
    active_color := .White
    castling_availability := (false, false, false, false)
    en_passant_target := some (3, 5)
    halfmove := 0, fullmove := 3 }

/-- A position where the side to move (White) has no king: a single white
pawn against a black king. -/
def c10Board : Board :=
  { pieces := setPiece (setPiece Pieces.new 3 3 (some ⟨.Pawn, .White⟩)) 7 7
      (some ⟨.King, .Black⟩)
    active_color := .White
    castling_availability := (false, false, false, false)
    en_passant_target := none
    halfmove := 0, fullmove := 1 }

/-- Tree-persistence text declaring one node but a child index 5: the
source indexes `tree.nodes[5]` out of range (a panic). -/
def c4input : List Char :=
  ("[chess game tree]\n" ++ "k7/8/8/8/8/8/8/K7 w - - 0 1\n" ++ "1\n"
    ++ "(5, Kb1)").toList

/-- Tree-persistence text whose child indices form a two-cycle between
nodes 0 and 1: both SAN entries decode and apply, so the source happily
builds a "tree" whose root has a parent. -/
def c8input : List Char :=
  ("[chess game tree]\n" ++ "K7/8/8/8/8/8/8/7k w - - 0 1\n" ++ "2\n"
    ++ "(1, Kb8)\n" ++ "(0, Kh2)").toList

/-- A FEN whose en-passant field is the single character `e`. -/
def c6input : List Char := "8/8/8/8/8/8/8/8 w KQkq e 0 1".toList

/-- The black king-side castling move e8 → g8. -/
def blackOO : Step := { fromSq := (4, 7), toSq := (6, 7) }

/-! ## Claim theorems (concrete evaluations) -/

set_option maxRecDepth 100000

/-- C1: the SAN round-trip `read_step(P, write_step(P, m)) = Some(m)`
fails on the code for black king-side castling: on `bkBoard` the legal
move e8 → g8 encodes to `O-O`, but decoding `O-O` yields `None` (the
decoder rebuilds the queen-side step (4,7) → (2,7) and the re-encoding
check fails). -/
theorem C1_san_round_trip_fails_black_kingside :
    write_step bkBoard blackOO = some "O-O".toList ∧
    read_step bkBoard "O-O".toList = none := by
  constructor
  · decide
  · decide

/-- C2: on `c2Board`, Black to move with the black king-side right set and
black king-side castling legal, decoding `O-O` returns `None` instead of
the king move (4,7) → (6,7) claimed. -/
theorem C2_black_kingside_decode_returns_none :
    c2Board.active_color = .Black ∧
    c2Board.castling_availability.2.2.1 = true ∧
    (try_move c2Board blackOO).isSome = true ∧
    write_step c2Board blackOO = some "O-O".toList ∧
    read_step c2Board "O-O".toList = none := by
  refine ⟨rfl, rfl, by decide, by decide, by decide⟩

/-- C3: moving the white rook away from h1 = (7,0) on `c3Board` clears the
black queen-side flag (the fourth) instead of the white king-side flag
(the first) the claim requires: the source's rook-square patterns are
coordinate-swapped. -/
theorem C3_rook_home_square_flags_swapped :
    c3Board.castling_availability = (true, true, true, true) ∧
    (try_move c3Board { fromSq := (7, 0), toSq := (7, 1) }).map
      Board.castling_availability = some (true, true, true, false) := by
  refine ⟨rfl, by decide⟩

/-- C4: tree deserialization is not total: on `c4input` (node count 1,
declared child index 5, a decodable SAN) the source panics at
`tree.nodes[5]` instead of returning `None`. -/
theorem C4_from_string_panics_on_invalid_child_index :
    gameTree_from_string c4input = .error () := by
  decide

/-- C6: FEN parsing is not total: an en-passant field `e` (neither `-` nor
two characters) makes the source panic at `.nth(1).unwrap()` instead of
falling back to `None`. -/
theorem C6_read_fen_panics_on_short_en_passant :
    read_fen c6input = .error () := by
  decide

/-- C8: `GameTree::from_string` on `c8input` successfully returns a
structure in which node 0 (the root) has parent 1 and node 1 has parent 0:
the arena is not a rooted tree. -/
theorem C8_from_string_builds_cyclic_tree :
    ((gameTree_from_string c8input).toOption.bind id).map
      (fun t => (t.root, (t.nodes.get? 0).map GameTreeNode.parent,
        (t.nodes.get? 1).map GameTreeNode.parent))
      = some (0, some (some 1), some (some 0)) := by
  decide

/-- C5 (counterexample): the claim that fullmove increments exactly when
the mover was White fails at `c5Board`: White moves a1 → a2 and the
fullmove counter stays 1. -/
theorem C5_counterexample_white_move_keeps_fullmove :
    ¬ (∀ (board : Board) (step : Step), (try_move board step).isSome = true →
        (try_move board step).map Board.active_color = some board.active_color.flip ∧
        (try_move board step).map Board.halfmove = some (board.halfmove + 1) ∧
        (try_move board step).map Board.fullmove =
          some (if board.active_color = .White then board.fullmove + 1
                else board.fullmove)) := by
  intro h
  have h2 := (h c5Board { fromSq := (0, 0), toSq := (0, 1) } (by decide)).2.2
  revert h2
  decide

/-- C9 (counterexample): the claim that a pawn landing on the recorded
en-passant target always removes the piece one rank behind the target
fails at `c9Freak`: the move is accepted through the castling branch and
the black pawn on g7 = (6,6) survives. -/
theorem C9_counterexample_castling_branch_skips_removal :
    ¬ (∀ (board : Board) (step : Step) (p : Piece),
        (try_move board step).isSome = true →
        pieceAt board.pieces step.fromSq.1 step.fromSq.2 = some p →
        p.piece_role = .Pawn →
        board.en_passant_target = some step.toSq →
        (try_move board step).map (fun b2 => pieceAt b2.pieces step.toSq.1
          (match board.active_color with
           | .White => step.toSq.2 - 1
           | .Black => step.toSq.2 + 1)) = some none) := by
  intro h
  have h2 := h c9Freak blackOO ⟨.Pawn, .White⟩ (by decide) (by decide) rfl (by decide)
  revert h2
  decide

/-! ## Field bookkeeping of `try_move` (for C5, C9, C10) -/

theorem flip_flip (c : PieceColor) : c.flip.flip = c := by
  cases c <;> rfl

theorem act_move_pre_active (b : Board) (s : Step) :
    (act_move_pre b s).active_color = b.active_color.flip := rfl

theorem act_move_pre_halfmove (b : Board) (s : Step) :
    (act_move_pre b s).halfmove = b.halfmove + 1 := rfl

theorem act_move_pre_fullmove (b : Board) (s : Step) :
    (act_move_pre b s).fullmove =
      if b.active_color = .Black then b.fullmove + 1 else b.fullmove := by
  cases h : b.active_color <;>
    simp [act_move_pre, PieceColor.flip, h]

theorem act_move_pre_ep (b : Board) (s : Step) :
    (act_move_pre b s).en_passant_target = none := rfl

theorem pawn_block_counters (board : Board) (step : Step) (b : Board) :
    (pawn_block board step b).active_color = b.active_color ∧
    (pawn_block board step b).halfmove = b.halfmove ∧
    (pawn_block board step b).fullmove = b.fullmove ∧
    (pawn_block board step b).castling_availability = b.castling_availability := by
  exact ⟨rfl, rfl, rfl, rfl⟩

theorem rights_block_rest (board : Board) (step : Step) (role : PieceRole) (b : Board) :
    (rights_block board step role b).active_color = b.active_color ∧
    (rights_block board step role b).halfmove = b.halfmove ∧
    (rights_block board step role b).fullmove = b.fullmove ∧
    (rights_block board step role b).en_passant_target = b.en_passant_target ∧
    (rights_block board step role b).pieces = b.pieces := by
  exact ⟨rfl, rfl, rfl, rfl, rfl⟩

theorem try_castle_single_fields {board : Board} {step : Step} {pb kpb : List (Nat × Nat)}
    {rs : Step} {b2 : Board}
    (h : try_castle_single board step pb kpb rs = some b2) :
    b2.active_color = board.active_color.flip ∧
    b2.halfmove = board.halfmove + 1 ∧
    b2.fullmove = (if board.active_color = .Black then board.fullmove + 1
      else board.fullmove) ∧
    b2.en_passant_target = none := by
  unfold try_castle_single at h
  dsimp only at h
  split at h
  · exact absurd h (by simp)
  split at h
  · exact absurd h (by simp)
  split at h
  · exact absurd h (by simp)
  rw [Option.some.injEq] at h
  subst h
  refine ⟨?_, ?_, ?_, ?_⟩ <;>
    cases hc : board.active_color <;>
      simp [act_move_pre_active, act_move_pre_halfmove, act_move_pre_fullmove,
        act_move_pre_ep, hc]

theorem try_castle_fields {board : Board} {step : Step} {b2 : Board}
    (h : try_castle board step = some b2) :
    b2.active_color = board.active_color.flip ∧
    b2.halfmove = board.halfmove + 1 ∧
    b2.fullmove = (if board.active_color = .Black then board.fullmove + 1
      else board.fullmove) ∧
    b2.en_passant_target = none := by
  unfold try_castle at h
  dsimp only at h
  split at h
  · exact try_castle_single_fields h
  split at h
  · exact try_castle_single_fields h
  split at h
  · exact try_castle_single_fields h
  split at h
  · exact try_castle_single_fields h
  exact absurd h (by simp)

theorem try_move_res_fields {board : Board} {step : Step} {b2 : Board}
    (h : try_move_res board step = some b2) :
    b2.active_color = board.active_color.flip ∧
    b2.halfmove = board.halfmove + 1 ∧
    b2.fullmove = (if board.active_color = .Black then board.fullmove + 1
      else board.fullmove) := by
  unfold try_move_res at h
  dsimp only at h
  split at h
  · exact absurd h (by simp)
  split at h
  · exact absurd h (by simp)
  split at h
  · exact absurd h (by simp)
  split at h
  · -- normal movement branch
    rw [Option.some.injEq] at h
    subst h
    rename_i piece hpiece hcolor hfriendly hcan
    have hr := rights_block_rest board step piece.piece_role
      (if piece.piece_role == .Pawn then pawn_block board step (act_move_pre board step)
       else act_move_pre board step)
    refine ⟨?_, ?_, ?_⟩
    · rw [hr.1]
      split
      · rw [(pawn_block_counters board step _).1, act_move_pre_active]
      · rw [act_move_pre_active]
    · rw [hr.2.1]
      split
      · rw [(pawn_block_counters board step _).2.1, act_move_pre_halfmove]
      · rw [act_move_pre_halfmove]
    · rw [hr.2.2.1]
      split
      · rw [(pawn_block_counters board step _).2.2.1, act_move_pre_fullmove]
      · rw [act_move_pre_fullmove]
  · -- castling branch
    have hf := try_castle_fields h
    exact ⟨hf.1, hf.2.1, hf.2.2.1⟩

theorem try_move_eq_res {board : Board} {step : Step} {b2 : Board}
    (h : try_move board step = some b2) :
    try_move_res board step = some b2 := by
  unfold try_move at h
  split at h
  · exact absurd h (by simp)
  next b hres =>
    split at h
    · split at h
      · rw [Option.some.injEq] at h
        subst h
        exact hres
      · exact absurd h (by simp)
    · exact absurd h (by simp)

/-- C5 (amended): every accepted move flips the side to move, increments
the halfmove counter, and increments the fullmove counter exactly when the
mover was Black. -/
theorem C5_amended_counters (board : Board) (step : Step)
    (h : (try_move board step).isSome = true) :
    (try_move board step).map Board.active_color = some board.active_color.flip ∧
    (try_move board step).map Board.halfmove = some (board.halfmove + 1) ∧
    (try_move board step).map Board.fullmove =
      some (if board.active_color = .Black then board.fullmove + 1
        else board.fullmove) := by
  obtain ⟨b2, hb2⟩ := Option.isSome_iff_exists.mp h
  have hres := try_move_eq_res hb2
  have hf := try_move_res_fields hres
  rw [hb2]
  exact ⟨by simp [hf.1], by simp [hf.2.1], by simp [hf.2.2]⟩

/-- Witness for C5: on `c5Board` (White to move, fullmove 1) the move
a1 → a2 is accepted, and the amended bookkeeping holds concretely. -/
theorem C5_amended_counters_witness :
    (try_move c5Board { fromSq := (0, 0), toSq := (0, 1) }).map Board.active_color
      = some .Black ∧
    (try_move c5Board { fromSq := (0, 0), toSq := (0, 1) }).map Board.halfmove
      = some 1 ∧
    (try_move c5Board { fromSq := (0, 0), toSq := (0, 1) }).map Board.fullmove
      = some 1 := by
  have h := C5_amended_counters c5Board { fromSq := (0, 0), toSq := (0, 1) } (by decide)
  refine ⟨h.1.trans (by decide), h.2.1.trans (by decide), h.2.2.trans (by decide)⟩

/-! ## Grid lemmas -/

theorem pieceAt_setPiece_self_none (g : Pieces) (x y : Nat) :
    pieceAt (setPiece g x y none) x y = none := by
  unfold setPiece pieceAt
  cases hx : g[x]? with
  | none => simp [hx]
  | some row =>
    have hlt : x < g.length := (List.getElem?_eq_some.mp hx).1
    rw [List.getElem?_set_self', hx]
    cases hy : row[y]? <;> simp [List.getElem?_set_self', hy]

theorem pieceAt_setPiece_ne (g : Pieces) (x y : Nat) (v : Option Piece)
    {i j : Nat} (hij : ¬ (i = x ∧ j = y)) :
    pieceAt (setPiece g x y v) i j = pieceAt g i j := by
  unfold setPiece pieceAt
  cases hx : g[x]? with
  | none => rfl
  | some row =>
    by_cases hxi : x = i
    · subst hxi
      have hjy : ¬ j = y := fun hj => hij ⟨rfl, hj⟩
      rw [List.getElem?_set_self', hx]
      simp [List.getElem?_set_ne (fun h => hjy h.symm)]
    · rw [List.getElem?_set_ne hxi]

theorem pieceAt_setPiece_cases (g : Pieces) (x y : Nat) (v : Option Piece) (i j : Nat) :
    pieceAt (setPiece g x y v) i j = pieceAt g i j ∨
    pieceAt (setPiece g x y v) i j = v := by
  by_cases hx : i = x
  · by_cases hy : j = y
    · subst hx
      subst hy
      unfold setPiece pieceAt
      cases hg : g[i]? with
      | none => left; simp [hg]
      | some row =>
        dsimp only
        rw [List.getElem?_set_self', hg]
        cases hr : row[j]? with
        | none =>
          left
          simp [List.getElem?_set_self', hr]
        | some p =>
          right
          simp [List.getElem?_set_self', hr]
    · left; exact pieceAt_setPiece_ne g x y v (fun hc => hy hc.2)
  · left; exact pieceAt_setPiece_ne g x y v (fun hc => hx hc.1)

theorem pieceAt_mapPieceAt_ne (g : Pieces) (x y : Nat) (f : Piece → Piece)
    {i j : Nat} (hij : ¬ (i = x ∧ j = y)) :
    pieceAt (mapPieceAt g x y f) i j = pieceAt g i j := by
  unfold mapPieceAt
  cases pieceAt g x y with
  | none => rfl
  | some p => exact pieceAt_setPiece_ne g x y _ hij

theorem pieceAt_mapPieceAt_cases (g : Pieces) (x y : Nat) (f : Piece → Piece) (i j : Nat) :
    pieceAt (mapPieceAt g x y f) i j = pieceAt g i j ∨
    ∃ p, pieceAt (mapPieceAt g x y f) i j = some (f p) := by
  unfold mapPieceAt
  cases pieceAt g x y with
  | none => left; rfl
  | some p =>
    rcases pieceAt_setPiece_cases g x y (some (f p)) i j with h | h
    · left; exact h
    · right; exact ⟨p, h⟩

/-! ## Structure of `try_move_res` successes (for C9, C10) -/

theorem try_move_res_cases {board : Board} {step : Step} {b2 : Board}
    (h : try_move_res board step = some b2) :
    (∃ piece, pieceAt board.pieces step.fromSq.1 step.fromSq.2 = some piece ∧
      piece.piece_color = board.active_color ∧
      can_move_pre board step = true ∧
      b2 = rights_block board step piece.piece_role
        (if piece.piece_role == .Pawn then pawn_block board step (act_move_pre board step)
         else act_move_pre board step)) ∨
    (can_move_pre board step = false ∧ try_castle board step = some b2) := by
  unfold try_move_res at h
  dsimp only at h
  split at h
  · exact absurd h (by simp)
  rename_i piece hpiece
  split at h
  · exact absurd h (by simp)
  rename_i hcolor
  split at h
  · exact absurd h (by simp)
  split at h
  · rename_i hcan
    rw [Option.some.injEq] at h
    exact Or.inl ⟨piece, hpiece, not_not.mp hcolor, hcan, h.symm⟩
  · rename_i hcan
    rw [Bool.not_eq_true] at hcan
    exact Or.inr ⟨hcan, h⟩

/-- Every successful `try_castle` keeps the rank: the four patterns all
have `from_y = to_y` (0 or 7) and `from_x = 4`. -/
theorem try_castle_same_rank {board : Board} {step : Step} {b2 : Board}
    (h : try_castle board step = some b2) :
    step.fromSq.2 = step.toSq.2 := by
  obtain ⟨⟨fx, fy⟩, ⟨tx, ty⟩⟩ := step
  unfold try_castle at h
  dsimp only at h
  split at h
  · rename_i hc
    simp only [Bool.and_eq_true, beq_iff_eq] at hc
    obtain ⟨⟨⟨⟨-, -⟩, h3⟩, h4⟩, -⟩ := hc
    simp [h3, h4]
  split at h
  · rename_i hc
    simp only [Bool.and_eq_true, beq_iff_eq] at hc
    obtain ⟨⟨⟨⟨-, -⟩, h3⟩, h4⟩, -⟩ := hc
    simp [h3, h4]
  split at h
  · rename_i hc
    simp only [Bool.and_eq_true, beq_iff_eq] at hc
    obtain ⟨⟨⟨⟨-, -⟩, h3⟩, h4⟩, -⟩ := hc
    simp [h3, h4]
  split at h
  · rename_i hc
    simp only [Bool.and_eq_true, beq_iff_eq] at hc
    obtain ⟨⟨⟨⟨-, -⟩, h3⟩, h4⟩, -⟩ := hc
    simp [h3, h4]
  exact absurd h (by simp)

/-! ## Pawn-move facts (for C9) -/

/-- An accepted pseudo-legal white pawn move always moves up the board. -/
theorem can_move_pre_pawn_white {board : Board} {step : Step} {piece : Piece}
    (hp : pieceAt board.pieces step.fromSq.1 step.fromSq.2 = some piece)
    (hrole : piece.piece_role = .Pawn) (hcol : piece.piece_color = .White)
    (h : can_move_pre board step = true) :
    step.fromSq.2 < step.toSq.2 := by
  obtain ⟨⟨fx, fy⟩, ⟨tx, ty⟩⟩ := step
  dsimp only at hp ⊢
  unfold can_move_pre at h
  dsimp only at h
  rw [hp] at h
  dsimp only at h
  rw [hrole, hcol] at h
  dsimp only [abs_and_sign] at h
  split at h
  · exact absurd h (by simp)
  split at h
  · split at h
    · rename_i hc
      simp only [Bool.and_eq_true, beq_iff_eq] at hc
      omega
    split at h
    · rename_i hc
      simp only [Bool.and_eq_true, beq_iff_eq] at hc
      omega
    · exact absurd h (by simp)
  split at h
  · rename_i hc
    simp only [Bool.and_eq_true, beq_iff_eq] at hc
    omega
  · exact absurd h (by simp)

/-- On a pawn move landing on the recorded en-passant target, the
pawn-block empties the square one rank behind the target (provided that
square is distinct from the destination). -/
theorem pawn_pieces_removes {board : Board} {step : Step}
    (hep : board.en_passant_target = some step.toSq)
    (hbehind : ¬ ((match board.active_color with
      | .White => step.toSq.2 - 1
      | .Black => step.toSq.2 + 1) = step.toSq.2)) (g : Pieces) :
    pieceAt (pawn_pieces board step g) step.toSq.1
      (match board.active_color with
       | .White => step.toSq.2 - 1
       | .Black => step.toSq.2 + 1) = none := by
  obtain ⟨⟨fx, fy⟩, ⟨tx, ty⟩⟩ := step
  dsimp only at hep hbehind ⊢
  unfold pawn_pieces
  dsimp only
  rw [hep]
  have hrem : (some ((tx, ty) : Nat × Nat) == some ((tx, ty) : Nat × Nat)) = true := by simp
  simp only [hrem]
  cases hc : board.active_color with
  | White =>
    rw [hc] at hbehind
    dsimp only
    split
    · rw [pieceAt_mapPieceAt_ne _ _ _ _ (fun hx => hbehind hx.2)]
      exact pieceAt_setPiece_self_none g tx (ty - 1)
    · exact pieceAt_setPiece_self_none g tx (ty - 1)
  | Black =>
    rw [hc] at hbehind
    dsimp only
    split
    · rw [pieceAt_mapPieceAt_ne _ _ _ _ (fun hx => hbehind hx.2)]
      exact pieceAt_setPiece_self_none g tx (ty + 1)
    · exact pieceAt_setPiece_self_none g tx (ty + 1)

/-- C9 (amended): for every accepted move with piece `p` on the origin
square: the resulting en-passant target is the skipped square exactly when
the move was a pawn double push, and a pawn move *accepted by the movement
rules* (`can_move_pre`) onto the recorded en-passant target empties the
square one rank behind the target from the mover's perspective.  (The
restriction to `can_move_pre` moves is forced by the source's castling
branch, which can relocate a non-king piece — see the counterexample.) -/
theorem C9_amended_en_passant (board : Board) (step : Step) (p : Piece)
    (h : (try_move board step).isSome = true)
    (hp : pieceAt board.pieces step.fromSq.1 step.fromSq.2 = some p) :
    (p.piece_role = .Pawn → step.toSq.2 = step.fromSq.2 + 2 →
      (try_move board step).map Board.en_passant_target
        = some (some (step.toSq.1, step.fromSq.2 + 1))) ∧
    (p.piece_role = .Pawn → step.fromSq.2 = step.toSq.2 + 2 →
      (try_move board step).map Board.en_passant_target
        = some (some (step.toSq.1, step.toSq.2 + 1))) ∧
    (¬ (p.piece_role = .Pawn ∧
        (step.toSq.2 = step.fromSq.2 + 2 ∨ step.fromSq.2 = step.toSq.2 + 2)) →
      (try_move board step).map Board.en_passant_target = some none) ∧
    (p.piece_role = .Pawn → can_move_pre board step = true →
      board.en_passant_target = some step.toSq →
      (try_move board step).map (fun b2 => pieceAt b2.pieces step.toSq.1
        (match board.active_color with
         | .White => step.toSq.2 - 1
         | .Black => step.toSq.2 + 1)) = some none) := by
  obtain ⟨b2, hb2⟩ := Option.isSome_iff_exists.mp h
  have hres := try_move_eq_res hb2
  rw [hb2]
  simp only [Option.map_some', Option.some.injEq]
  rcases try_move_res_cases hres with ⟨piece, hpiece, hcolact, hcan, hb2eq⟩ |
    ⟨hcanF, hcastle⟩
  · -- normal movement branch
    rw [hp] at hpiece
    rw [Option.some.injEq] at hpiece
    subst hpiece
    subst hb2eq
    have hepfield := (rights_block_rest board step p.piece_role
      (if p.piece_role == .Pawn then pawn_block board step (act_move_pre board step)
       else act_move_pre board step)).2.2.2.1
    have hpfield := (rights_block_rest board step p.piece_role
      (if p.piece_role == .Pawn then pawn_block board step (act_move_pre board step)
       else act_move_pre board step)).2.2.2.2
    refine ⟨?_, ?_, ?_, ?_⟩
    · intro hrole hshape
      rw [hepfield, if_pos (by rw [hrole]; rfl)]
      show pawn_ep step (act_move_pre board step).en_passant_target = _
      rw [act_move_pre_ep]
      unfold pawn_ep
      obtain ⟨⟨fx, fy⟩, ⟨tx, ty⟩⟩ := step
      dsimp only at hshape ⊢
      rw [if_pos (by simp [hshape])]
    · intro hrole hshape
      rw [hepfield, if_pos (by rw [hrole]; rfl)]
      show pawn_ep step (act_move_pre board step).en_passant_target = _
      rw [act_move_pre_ep]
      unfold pawn_ep
      obtain ⟨⟨fx, fy⟩, ⟨tx, ty⟩⟩ := step
      dsimp only at hshape ⊢
      rw [if_neg (by simp; omega), if_pos (by simp [hshape])]
    · intro hnot
      rw [hepfield]
      by_cases hrole : p.piece_role = .Pawn
      · rw [if_pos (by rw [hrole]; rfl)]
        show pawn_ep step (act_move_pre board step).en_passant_target = _
        rw [act_move_pre_ep]
        unfold pawn_ep
        obtain ⟨⟨fx, fy⟩, ⟨tx, ty⟩⟩ := step
        dsimp only
        rw [if_neg, if_neg]
        · simp only [beq_iff_eq]
          intro hc
          exact hnot ⟨hrole, Or.inr hc⟩
        · simp only [beq_iff_eq]
          intro hc
          exact hnot ⟨hrole, Or.inl hc⟩
      · rw [if_neg (by simp [hrole])]
        exact act_move_pre_ep board step
    · intro hrole hcanm hep
      rw [hpfield, if_pos (by rw [hrole]; rfl)]
      show pieceAt (pawn_pieces board step (act_move_pre board step).pieces) _ _ = none
      refine pawn_pieces_removes hep ?_ _
      cases hact : board.active_color with
      | White =>
        have hcolw : p.piece_color = .White := by rw [hcolact, hact]
        have hlt := can_move_pre_pawn_white hp hrole hcolw hcanm
        dsimp only
        omega
      | Black =>
        dsimp only
        omega
  · -- castling branch
    have hrank := try_castle_same_rank hcastle
    have hfields := try_castle_fields hcastle
    refine ⟨?_, ?_, ?_, ?_⟩
    · intro _ hshape
      omega
    · intro _ hshape
      omega
    · intro _
      exact hfields.2.2.2
    · intro _ hcanm _
      rw [hcanF] at hcanm
      exact absurd hcanm (by simp)

/-- Witness for C9: the genuine en-passant capture e5×d6 on `c9Board`
(white pawn e5, black pawn d5, target d6) clears the resulting target and
removes the black pawn on d5 = (3,4). -/
theorem C9_amended_en_passant_witness :
    (try_move c9Board { fromSq := (4, 4), toSq := (3, 5) }).map
      Board.en_passant_target = some none ∧
    (try_move c9Board { fromSq := (4, 4), toSq := (3, 5) }).map
      (fun b2 => pieceAt b2.pieces 3 4) = some none := by
  have h := C9_amended_en_passant c9Board { fromSq := (4, 4), toSq := (3, 5) }
    ⟨.Pawn, .White⟩ (by decide) (by decide)
  exact ⟨h.2.2.1 (by decide), h.2.2.2 rfl (by decide) (by decide)⟩

/-! ## Kingless positions (C10) -/

/-- The structural invariant of the Rust `Pieces` grid: 8 columns of 8
squares (`Pieces::new` and every FEN-built grid have this shape, and all
mutations preserve it). -/
def Board.WF (b : Board) : Prop :=
  b.pieces.length = 8 ∧ ∀ row ∈ b.pieces, row.length = 8

/-- "No king of colour `c` anywhere on the grid." -/
def NK (g : Pieces) (c : PieceColor) : Prop :=
  ∀ i j p, pieceAt g i j = some p →
    ¬ (p.piece_role = .King ∧ p.piece_color = c)

theorem king_pos_eq_none_iff (b : Board) (c : PieceColor) :
    king_pos b c = none ↔
      ∀ i j, i < 8 → j < 8 → ∀ p, pieceAt b.pieces i j = some p →
        ¬ (p.piece_role = .King ∧ p.piece_color = c) := by
  unfold king_pos
  rw [List.findSome?_eq_none_iff]
  constructor
  · intro h i j hi hj p hp hcond
    have hji := h i (List.mem_range.mpr hi)
    rw [List.findSome?_eq_none_iff] at hji
    have hjj := hji j (List.mem_range.mpr hj)
    rw [hp] at hjj
    dsimp only at hjj
    rw [if_pos hcond] at hjj
    exact absurd hjj (by simp)
  · intro h i hi
    rw [List.findSome?_eq_none_iff]
    intro j hj
    cases hp : pieceAt b.pieces i j with
    | none => rfl
    | some p =>
      dsimp only
      rw [if_neg (h i j (List.mem_range.mp hi) (List.mem_range.mp hj) p hp)]

theorem NK_of_king_pos_none {board : Board} (hwf : Board.WF board)
    (hk : king_pos board board.active_color = none) :
    NK board.pieces board.active_color := by
  intro i j p hp hcond
  cases hi : board.pieces[i]? with
  | none =>
    unfold pieceAt at hp
    rw [hi] at hp
    exact absurd hp (by simp)
  | some row =>
    cases hj : row[j]? with
    | none =>
      have hnone : pieceAt board.pieces i j = none := by
        unfold pieceAt
        rw [hi]
        simp [hj]
      rw [hnone] at hp
      exact absurd hp (by simp)
    | some v =>
      have hiLt : i < 8 := by
        have h1 := (List.getElem?_eq_some.mp hi).1
        have h0 := hwf.1
        omega
      have hjLt : j < 8 := by
        have h1 := (List.getElem?_eq_some.mp hj).1
        have h2 : row ∈ board.pieces := List.getElem?_mem hi
        have h3 := hwf.2 row h2
        omega
      exact (king_pos_eq_none_iff board board.active_color).mp hk i j hiLt hjLt p hp
        hcond

theorem NK_setPiece {g : Pieces} {c : PieceColor} (hg : NK g c) {v : Option Piece}
    (hv : v = none ∨ (∃ g0 a b, NK g0 c ∧ v = pieceAt g0 a b) ∨
      (∃ q, v = some q ∧ q.piece_role ≠ .King)) (x y : Nat) :
    NK (setPiece g x y v) c := by
  intro i j p hp hcond
  rcases pieceAt_setPiece_cases g x y v i j with hcase | hcase
  · rw [hcase] at hp
    exact hg i j p hp hcond
  · rw [hcase] at hp
    rcases hv with rfl | ⟨g0, a, b, hg0, rfl⟩ | ⟨q, rfl, hq⟩
    · exact absurd hp (by simp)
    · exact hg0 a b p hp hcond
    · rw [Option.some.injEq] at hp
      subst hp
      exact hq hcond.1

theorem NK_mapQueen {g : Pieces} {c : PieceColor} (hg : NK g c) (x y : Nat) :
    NK (mapPieceAt g x y (fun p => { p with piece_role := .Queen })) c := by
  intro i j p hp hcond
  rcases pieceAt_mapPieceAt_cases g x y _ i j with hcase | ⟨q, hcase⟩
  · rw [hcase] at hp
    exact hg i j p hp hcond
  · rw [hcase, Option.some.injEq] at hp
    subst hp
    exact absurd hcond.1 (by simp)

theorem NK_act_move_pre {board : Board} {c : PieceColor} (hg : NK board.pieces c)
    (step : Step) :
    NK (act_move_pre board step).pieces c := by
  have hshape : (act_move_pre board step).pieces =
      setPiece (setPiece board.pieces step.fromSq.1 step.fromSq.2 none)
        step.toSq.1 step.toSq.2 (pieceAt board.pieces step.fromSq.1 step.fromSq.2) := rfl
  rw [hshape]
  refine NK_setPiece (NK_setPiece hg (Or.inl rfl) _ _) ?_ _ _
  exact Or.inr (Or.inl ⟨board.pieces, step.fromSq.1, step.fromSq.2, hg, rfl⟩)

theorem NK_pawn_pieces {board : Board} {c : PieceColor} {g : Pieces} (hg : NK g c)
    (step : Step) :
    NK (pawn_pieces board step g) c := by
  obtain ⟨⟨fx, fy⟩, ⟨tx, ty⟩⟩ := step
  unfold pawn_pieces
  dsimp only
  have hg2 : NK (if (board.en_passant_target == some (tx, ty)) = true then
      match board.active_color with
      | PieceColor.White => setPiece g tx (ty - 1) none
      | PieceColor.Black => setPiece g tx (ty + 1) none
    else g) c := by
    split
    · cases board.active_color <;> exact NK_setPiece hg (Or.inl rfl) _ _
    · exact hg
  split
  · exact NK_mapQueen hg2 _ _
  · exact hg2

theorem try_castle_single_pieces {board : Board} {step : Step}
    {pb kpb : List (Nat × Nat)} {rs : Step} {b2 : Board}
    (h : try_castle_single board step pb kpb rs = some b2) :
    b2.pieces = setPiece
      (setPiece (act_move_pre board step).pieces rs.fromSq.1 rs.fromSq.2 none)
      rs.toSq.1 rs.toSq.2
      (pieceAt (act_move_pre board step).pieces rs.fromSq.1 rs.fromSq.2) := by
  unfold try_castle_single at h
  dsimp only at h
  split at h
  · exact absurd h (by simp)
  split at h
  · exact absurd h (by simp)
  split at h
  · exact absurd h (by simp)
  rw [Option.some.injEq] at h
  subst h
  rfl

theorem NK_try_castle {board : Board} {c : PieceColor} (hg : NK board.pieces c)
    {step : Step} {b2 : Board} (h : try_castle board step = some b2) :
    NK b2.pieces c := by
  have hNKact : NK (act_move_pre board step).pieces c := NK_act_move_pre hg step
  have hshape : ∃ rs : Step, b2.pieces = setPiece
      (setPiece (act_move_pre board step).pieces rs.fromSq.1 rs.fromSq.2 none)
      rs.toSq.1 rs.toSq.2
      (pieceAt (act_move_pre board step).pieces rs.fromSq.1 rs.fromSq.2) := by
    unfold try_castle at h
    dsimp only at h
    split at h
    · exact ⟨_, try_castle_single_pieces h⟩
    split at h
    · exact ⟨_, try_castle_single_pieces h⟩
    split at h
    · exact ⟨_, try_castle_single_pieces h⟩
    split at h
    · exact ⟨_, try_castle_single_pieces h⟩
    exact absurd h (by simp)
  obtain ⟨rs, hs⟩ := hshape
  rw [hs]
  refine NK_setPiece (NK_setPiece hNKact (Or.inl rfl) _ _) ?_ _ _
  exact Or.inr (Or.inl ⟨(act_move_pre board step).pieces, rs.fromSq.1, rs.fromSq.2,
    hNKact, rfl⟩)

theorem NK_try_move_res {board : Board} {c : PieceColor} (hg : NK board.pieces c)
    {step : Step} {b2 : Board} (h : try_move_res board step = some b2) :
    NK b2.pieces c := by
  rcases try_move_res_cases h with ⟨piece, hpiece, hcolact, hcan, hb2eq⟩ | ⟨-, hcastle⟩
  · subst hb2eq
    rw [(rights_block_rest board step piece.piece_role _).2.2.2.2]
    split
    · show NK (pawn_block board step (act_move_pre board step)).pieces c
      show NK (pawn_pieces board step (act_move_pre board step).pieces) c
      exact NK_pawn_pieces (NK_act_move_pre hg step) step
    · exact NK_act_move_pre hg step
  · exact NK_try_castle hg hcastle

/-- On a kingless-to-move position every candidate move is rejected by the
final self-check gate of `try_move`. -/
theorem try_move_none_of_kingless {board : Board} (hwf : Board.WF board)
    (hk : king_pos board board.active_color = none) (step : Step) :
    try_move board step = none := by
  have hNK : NK board.pieces board.active_color := NK_of_king_pos_none hwf hk
  unfold try_move
  cases hres : try_move_res board step with
  | none => rfl
  | some b =>
    have hNKb : NK b.pieces board.active_color := NK_try_move_res hNK hres
    have hact : b.active_color = board.active_color.flip :=
      (try_move_res_fields hres).1
    have hkb : king_pos b b.active_color.flip = none := by
      rw [hact, flip_flip]
      exact (king_pos_eq_none_iff b board.active_color).mpr
        (fun i j _ _ p hp hcond => hNKb i j p hp hcond)
    dsimp only
    rw [hkb]

theorem all_move_nil_of_try_move_none {board : Board}
    (h : ∀ step, try_move board step = none) :
    all_move board = [] := by
  rw [List.eq_nil_iff_forall_not_mem]
  intro s hs
  unfold all_move at hs
  rw [List.mem_flatMap] at hs
  obtain ⟨fx, -, hs⟩ := hs
  rw [List.mem_flatMap] at hs
  obtain ⟨fy, -, hs⟩ := hs
  rcases hp : pieceAt board.pieces fx fy with - | piece
  · rw [hp] at hs
    exact absurd hs (by simp)
  · rw [hp] at hs
    dsimp only at hs
    split at hs
    · rw [List.mem_map] at hs
      obtain ⟨t, ht, -⟩ := hs
      unfold all_targets at ht
      rw [List.mem_flatMap] at ht
      obtain ⟨tx, -, ht⟩ := ht
      rw [List.mem_filterMap] at ht
      obtain ⟨ty, -, ht⟩ := ht
      rw [h { fromSq := (fx, fy), toSq := (tx, ty) }] at ht
      exact absurd ht (by simp)
    · exact absurd hs (by simp)

/-- C10: in a position whose side to move has no king, move application
rejects every candidate move, the legal-move list is empty, the
end-of-game test reports a draw, and the in-check test nevertheless calls
the kingless side safe. -/
theorem C10_kingless_draw (board : Board) (hwf : Board.WF board)
    (hk : king_pos board board.active_color = none) :
    (∀ step, try_move board step = none) ∧
    all_move board = [] ∧
    end_game board = some .Draw ∧
    king_safe board board.active_color = true := by
  have h1 := try_move_none_of_kingless hwf hk
  have h2 := all_move_nil_of_try_move_none h1
  refine ⟨h1, h2, ?_, ?_⟩
  · unfold end_game
    rw [h2, hk]
    rfl
  · unfold king_safe
    rw [hk]

/-- Witness for C10: on `c10Board` (a white pawn and a black king, White
to move) every probe move is rejected and the position counts as a draw. -/
theorem C10_kingless_draw_witness :
    try_move c10Board { fromSq := (3, 3), toSq := (3, 4) } = none ∧
    all_move c10Board = [] ∧
    end_game c10Board = some .Draw ∧
    king_safe c10Board .White = true := by
  have h := C10_kingless_draw c10Board (by constructor <;> decide) (by decide)
  exact ⟨h.1 _, h.2.1, h.2.2.1, h.2.2.2⟩

/-! ## FEN round trip (C7): decimal formatting -/

/-- The numeric value of a digit string, as `parseNat` folds it. -/
def digitsVal (l : List Char) : Nat :=
  l.foldl (fun acc c => acc * 10 + (c.toNat - '0'.toNat)) 0

theorem digitsVal_append_digit (l : List Char) (c : Char) :
    digitsVal (l ++ [c]) = digitsVal l * 10 + (c.toNat - '0'.toNat) := by
  unfold digitsVal
  rw [List.foldl_append]
  rfl

theorem digit_char_facts {d : Nat} (hd : d < 10) :
    (Char.ofNat ('0'.toNat + d)).isDigit = true ∧
    (Char.ofNat ('0'.toNat + d)).toNat = '0'.toNat + d ∧
    isWs (Char.ofNat ('0'.toNat + d)) = false ∧
    Char.ofNat ('0'.toNat + d) ≠ '+' := by
  interval_cases d <;> refine ⟨by decide, by decide, by decide, by decide⟩

theorem natToCharsAux_spec : ∀ fuel n, n < fuel →
    natToCharsAux fuel n ≠ [] ∧
    (∀ c ∈ natToCharsAux fuel n, c.isDigit = true) ∧
    digitsVal (natToCharsAux fuel n) = n := by
  intro fuel
  induction fuel with
  | zero => intro n hn; omega
  | succ f ih =>
    intro n hn
    unfold natToCharsAux
    split
    · rename_i h10
      refine ⟨by simp, ?_, ?_⟩
      · intro c hc
        rw [List.mem_singleton] at hc
        subst hc
        exact (digit_char_facts h10).1
      · show digitsVal [Char.ofNat ('0'.toNat + n)] = n
        unfold digitsVal
        simp only [List.foldl_cons, List.foldl_nil, (digit_char_facts h10).2.1]
        omega
    · rename_i h10
      have hrec := ih (n / 10) (by omega)
      refine ⟨by simp [hrec.1], ?_, ?_⟩
      · intro c hc
        rw [List.mem_append] at hc
        rcases hc with hc | hc
        · exact hrec.2.1 c hc
        · rw [List.mem_singleton] at hc
          subst hc
          exact (digit_char_facts (by omega)).1
      · rw [digitsVal_append_digit, hrec.2.2, (digit_char_facts (d := n % 10) (by omega)).2.1]
        omega

theorem natToChars_spec (n : Nat) :
    natToChars n ≠ [] ∧
    (∀ c ∈ natToChars n, c.isDigit = true) ∧
    digitsVal (natToChars n) = n :=
  natToCharsAux_spec (n + 1) n (by omega)

/-- `parseNat`, with any leading `+` handled, applied to an all-digit
non-empty string returns its value. -/
theorem parseNat_of_digits {s : List Char} (hne : s ≠ [])
    (hdig : ∀ c ∈ s, c.isDigit = true) : parseNat s = some (digitsVal s) := by
  unfold parseNat
  cases hh : s with
  | nil => exact absurd hh hne
  | cons c rest =>
    have hc : c.isDigit = true := hdig c (by rw [hh]; exact List.mem_cons_self c rest)
    have hplus : ¬ c = '+' := by
      intro hp
      rw [hp] at hc
      exact absurd hc (by decide)
    dsimp only
    rw [if_neg hplus]
    rw [← hh]
    rw [if_pos ⟨hne, by rw [List.all_eq_true]; exact hdig⟩]
    rfl

theorem parseNat_natToChars (n : Nat) : parseNat (natToChars n) = some n := by
  obtain ⟨hne, hdig, hval⟩ := natToChars_spec n
  rw [parseNat_of_digits hne hdig, hval]

/-! ## FEN round trip (C7): splitting the six fields -/

theorem swAux_token_aux {t : List Char} (hws : ∀ c ∈ t, isWs c = false) :
    ∀ {acc : List Char} {rest : List Char}, acc ≠ [] →
      swAux (t ++ ' ' :: rest) acc = (acc.reverse ++ t) :: swAux rest [] := by
  induction t with
  | nil =>
    intro acc rest hacc
    show swAux (' ' :: rest) acc = _
    rw [swAux.eq_def]
    dsimp only
    rw [if_pos (by decide), if_neg hacc]
    simp
  | cons c t ih =>
    intro acc rest hacc
    show swAux (c :: (t ++ ' ' :: rest)) acc = _
    rw [swAux.eq_def]
    dsimp only
    rw [if_neg (by simp [hws c (List.mem_cons_self c t)])]
    rw [ih (fun d hd => hws d (List.mem_cons_of_mem c hd)) (by simp)]
    simp

theorem swAux_token {t : List Char} (hws : ∀ c ∈ t, isWs c = false)
    (hne : t ≠ []) (rest : List Char) :
    swAux (t ++ ' ' :: rest) [] = t :: swAux rest [] := by
  cases t with
  | nil => exact absurd rfl hne
  | cons c t =>
    show swAux (c :: (t ++ ' ' :: rest)) [] = _
    rw [swAux.eq_def]
    dsimp only
    rw [if_neg (by simp [hws c (List.mem_cons_self c t)])]
    rw [swAux_token_aux (fun d hd => hws d (List.mem_cons_of_mem c hd)) (by simp)]
    simp

theorem swAux_last_aux {t : List Char} (hws : ∀ c ∈ t, isWs c = false) :
    ∀ {acc : List Char}, acc ≠ [] → swAux t acc = [acc.reverse ++ t] := by
  induction t with
  | nil =>
    intro acc hacc
    rw [swAux.eq_def]
    dsimp only
    rw [if_neg hacc]
    simp
  | cons c t ih =>
    intro acc hacc
    rw [swAux.eq_def]
    dsimp only
    rw [if_neg (by simp [hws c (List.mem_cons_self c t)])]
    rw [ih (fun d hd => hws d (List.mem_cons_of_mem c hd)) (by simp)]
    simp

theorem swAux_last {t : List Char} (hws : ∀ c ∈ t, isWs c = false)
    (hne : t ≠ []) : swAux t [] = [t] := by
  cases t with
  | nil => exact absurd rfl hne
  | cons c t =>
    rw [swAux.eq_def]
    dsimp only
    rw [if_neg (by simp [hws c (List.mem_cons_self c t)])]
    rw [swAux_last_aux (fun d hd => hws d (List.mem_cons_of_mem c hd)) (by simp)]
    simp

/-- `split_whitespace` recovers six space-joined, whitespace-free,
non-empty fields. -/
theorem split_whitespace_six {f1 f2 f3 f4 f5 f6 : List Char}
    (h1 : ∀ c ∈ f1, isWs c = false) (h2 : ∀ c ∈ f2, isWs c = false)
    (h3 : ∀ c ∈ f3, isWs c = false) (h4 : ∀ c ∈ f4, isWs c = false)
    (h5 : ∀ c ∈ f5, isWs c = false) (h6 : ∀ c ∈ f6, isWs c = false)
    (n1 : f1 ≠ []) (n2 : f2 ≠ []) (n3 : f3 ≠ []) (n4 : f4 ≠ [])
    (n5 : f5 ≠ []) (n6 : f6 ≠ []) :
    split_whitespace (f1 ++ ' ' :: f2 ++ ' ' :: f3 ++ ' ' :: f4 ++ ' ' :: f5
      ++ ' ' :: f6) = [f1, f2, f3, f4, f5, f6] := by
  unfold split_whitespace
  simp only [List.append_assoc, List.cons_append]
  rw [swAux_token h1 n1, swAux_token h2 n2, swAux_token h3 n3,
    swAux_token h4 n4, swAux_token h5 n5, swAux_last h6 n6]

/-! ## FEN round trip (C7): compression -/

theorem compressAux_fuel : ∀ fuel (l : List Char), l.length ≤ fuel →
    compressAux fuel l = compress l := by
  intro fuel
  induction fuel using Nat.strong_induction_on with
  | _ fuel ih =>
    intro l hl
    match fuel, l with
    | 0, [] => rfl
    | 0, c :: rest => simp at hl
    | f + 1, [] => rfl
    | f + 1, c :: rest =>
      have hrl : rest.length ≤ f := by
        simp only [List.length_cons] at hl
        omega
      have hd : (rest.dropWhile (fun d => d = '1')).length ≤ rest.length :=
        (List.dropWhile_sublist _).length_le
      unfold compress
      simp only [List.length_cons]
      simp only [compressAux]
      split
      · rw [ih f (by omega) _ (by omega), ih rest.length (by omega) _ (by omega)]
      · rw [ih f (by omega) rest (by omega), ih rest.length (by omega) rest (by omega)]

theorem compress_cons_ne {c : Char} (h : ¬ c = '1') (rest : List Char) :
    compress (c :: rest) = c :: compress rest := by
  unfold compress
  simp only [List.length_cons]
  simp only [compressAux]
  rw [if_neg h]

theorem compress_cons_one (rest : List Char) :
    compress ('1' :: rest) =
      (if 2 ≤ (rest.takeWhile (fun d => d = '1')).length + 1 then
        natToChars ((rest.takeWhile (fun d => d = '1')).length + 1) else ['1'])
      ++ compress (rest.dropWhile (fun d => d = '1')) := by
  unfold compress
  simp only [List.length_cons]
  simp only [compressAux]
  have hd : (rest.dropWhile (fun d => d = '1')).length ≤ rest.length :=
    (List.dropWhile_sublist _).length_le
  rw [if_pos trivial]
  rw [compressAux_fuel rest.length _ (by omega)]
  rfl

/-- Small decimal numbers print as one digit. -/
theorem natToChars_small {k : Nat} (hk : k < 10) :
    natToChars k = [Char.ofNat ('0'.toNat + k)] := by
  unfold natToChars natToCharsAux
  rw [if_pos hk]

/-- A single-digit character is not a space, slash, `'1'`-independent
letter, whitespace or plus. -/
theorem digit_char_more {d : Nat} (hd : d < 10) :
    ¬ (Char.ofNat ('0'.toNat + d)) = ' ' ∧
    ¬ (Char.ofNat ('0'.toNat + d)) = '/' := by
  interval_cases d <;> exact ⟨by decide, by decide⟩

/-- Parsing `k` copies of `'1'` just advances the column by `k`. -/
theorem parse_ones (k : Nat) (suffix : List Char) (g : Pieces) (row col : Nat) :
    parsePlacement (List.replicate k '1' ++ suffix) g row col
      = parsePlacement suffix g row (col + k) := by
  induction k generalizing col with
  | zero => simp
  | succ n ih =>
    rw [List.replicate_succ, List.cons_append]
    simp only [parsePlacement]
    rw [if_neg (by decide), if_neg (by decide), if_pos (by decide)]
    rw [ih]
    congr 1
    have h1 : ('1' : Char).toNat - '0'.toNat = 1 := by decide
    rw [h1]
    omega

/-- The leading `'1'`-run of a character list. -/
def leadRun (l : List Char) : Nat := (l.takeWhile (fun c => c = '1')).length

theorem dropWhile_isSuffix (p : Char → Bool) (l : List Char) :
    l.dropWhile p <:+ l :=
  ⟨l.takeWhile p, List.takeWhile_append_dropWhile p l⟩

/-- Parsing the compressed placement text is the same as parsing the raw
text, provided every `'1'`-run is at most 8 long. -/
theorem parse_compress : ∀ n (s : List Char), s.length ≤ n →
    (∀ t, t <:+ s → leadRun t ≤ 8) → ∀ (g : Pieces) (row col : Nat),
    parsePlacement (compress s) g row col = parsePlacement s g row col := by
  intro n
  induction n with
  | zero =>
    intro s hs h8 g row col
    have hnil : s = [] := List.eq_nil_of_length_eq_zero (by omega)
    subst hnil
    rfl
  | succ n ih =>
    intro s hs h8 g row col
    match s with
    | [] => rfl
    | c :: rest =>
      by_cases hc : c = '1'
      · subst hc
        rw [compress_cons_one]
        have hk8 : (rest.takeWhile (fun d => d = '1')).length + 1 ≤ 8 := by
          have h1 := h8 ('1' :: rest) (List.suffix_refl _)
          unfold leadRun at h1
          rw [List.takeWhile_cons, if_pos (by decide)] at h1
          simp only [List.length_cons] at h1
          omega
        have hones : ('1' :: rest).takeWhile (fun d => d = '1')
            = List.replicate ((rest.takeWhile (fun d => d = '1')).length + 1) '1' := by
          rw [List.eq_replicate_iff]
          refine ⟨?_, ?_⟩
          · rw [List.takeWhile_cons, if_pos (by decide)]
            simp
          · intro b hb
            have h2 := List.mem_takeWhile_imp hb
            simpa using h2
        have hdw : ('1' :: rest).dropWhile (fun d => d = '1')
            = rest.dropWhile (fun d => d = '1') := by
          rw [List.dropWhile_cons]
          simp
        have hsplit : ('1' :: rest)
            = List.replicate ((rest.takeWhile (fun d => d = '1')).length + 1) '1'
              ++ rest.dropWhile (fun d => d = '1') := by
          have h3 := List.takeWhile_append_dropWhile (fun d => d = '1') ('1' :: rest)
          rw [hones, hdw] at h3
          exact h3.symm
        have hdroplen : (rest.dropWhile (fun d => d = '1')).length ≤ n := by
          have h1 : (rest.dropWhile (fun d => d = '1')).length ≤ rest.length :=
            (List.dropWhile_sublist _).length_le
          simp only [List.length_cons] at hs
          omega
        have hdropsuffix : ∀ t, t <:+ rest.dropWhile (fun d => d = '1') →
            leadRun t ≤ 8 := by
          intro t ht
          refine h8 t (ht.trans ((dropWhile_isSuffix _ rest).trans ⟨['1'], rfl⟩))
        have hih := ih (rest.dropWhile (fun d => d = '1')) hdroplen hdropsuffix g row
        conv_rhs => rw [hsplit]
        rw [parse_ones]
        split
        · rename_i h2
          rw [natToChars_small (by omega), List.singleton_append]
          obtain ⟨hsp, hsl⟩ := digit_char_more
            (show (rest.takeWhile (fun d => d = '1')).length + 1 < 10 by omega)
          have hdig := (digit_char_facts
            (show (rest.takeWhile (fun d => d = '1')).length + 1 < 10 by omega)).1
          have htn := (digit_char_facts
            (show (rest.takeWhile (fun d => d = '1')).length + 1 < 10 by omega)).2.1
          simp only [parsePlacement]
          rw [if_neg hsp, if_neg hsl, if_pos hdig]
          rw [hih]
          congr 1
          rw [htn]
          omega
        · rename_i h2
          rw [List.singleton_append]
          simp only [parsePlacement]
          rw [if_neg (by decide), if_neg (by decide), if_pos (by decide)]
          rw [hih]
          congr 1
          have h1 : ('1' : Char).toNat - '0'.toNat = 1 := by decide
          rw [h1]
          omega
      · rw [compress_cons_ne hc]
        have hrestlen : rest.length ≤ n := by
          simp only [List.length_cons] at hs
          omega
        have hrestsuffix : ∀ t, t <:+ rest → leadRun t ≤ 8 :=
          fun t ht => h8 t (ht.trans ⟨[c], rfl⟩)
        have hih := ih rest hrestlen hrestsuffix
        simp only [parsePlacement]
        split
        · rfl
        split
        · split
          · rfl
          · rw [hih]
        split
        · rw [hih]
        split
        · split
          · rw [hih]
          · rfl
        · rw [hih]

/-! ## FEN round trip (C7): parsing the raw placement -/

/-- Well-formedness of a bare grid: 8 columns of 8 squares. -/
def WFg (g : Pieces) : Prop :=
  g.length = 8 ∧ ∀ row ∈ g, row.length = 8

theorem WFg_setPiece {g : Pieces} (h : WFg g) (x y : Nat) (v : Option Piece) :
    WFg (setPiece g x y v) := by
  unfold setPiece
  cases hx : g[x]? with
  | none => exact h
  | some row =>
    refine ⟨by rw [List.length_set]; exact h.1, ?_⟩
    intro r hr
    rcases List.mem_or_eq_of_mem_set hr with hr | rfl
    · exact h.2 r hr
    · rw [List.length_set]
      exact h.2 row (List.getElem?_mem hx)

theorem pieceAt_setPiece_self_some {g : Pieces} (h : WFg g) {x y : Nat}
    (hx : x < 8) (hy : y < 8) (v : Option Piece) :
    pieceAt (setPiece g x y v) x y = v := by
  have hxl : x < g.length := by
    have hl := h.1
    omega
  have hrow := List.getElem?_eq_getElem hxl
  unfold setPiece pieceAt
  rw [hrow]
  dsimp only
  rw [List.getElem?_set_self', hrow]
  have hyl : y < (g[x]).length := by
    rw [h.2 (g[x]) (List.getElem?_mem hrow)]
    omega
  simp [List.getElem?_set_self', List.getElem?_eq_getElem hyl]

theorem pieceAt_new (i j : Nat) : pieceAt Pieces.new i j = none := by
  unfold pieceAt Pieces.new
  rw [List.getElem?_replicate]
  split
  · show ((List.replicate 8 (none : Option Piece))[j]?.getD none) = none
    rw [List.getElem?_replicate]
    split <;> rfl
  · rfl

theorem WFg_new : WFg Pieces.new := by
  constructor
  · rfl
  · intro row hrow
    rw [List.eq_of_mem_replicate hrow]
    rfl

/-- The grid writes of the placement loop for one rank of cells. -/
def placeCells : Pieces → Nat → Nat → List (Option Piece) → Pieces
  | g, _, _, [] => g
  | g, row, col, none :: cells => placeCells g row (col + 1) cells
  | g, row, col, some p :: cells =>
    placeCells (setPiece g col row (some p)) row (col + 1) cells

theorem placeCells_WF : ∀ (cells : List (Option Piece)) (col : Nat) {g : Pieces}
    (_ : WFg g) (row : Nat), WFg (placeCells g row col cells) := by
  intro cells
  induction cells with
  | nil => intro col g hg row; exact hg
  | cons cell cells ih =>
    intro col g hg row
    cases cell with
    | none => exact ih (col + 1) hg row
    | some p => exact ih (col + 1) (WFg_setPiece hg col row (some p)) row

theorem placeCells_other_row : ∀ (cells : List (Option Piece)) (col : Nat)
    (g : Pieces) (row i j : Nat), ¬ j = row →
    pieceAt (placeCells g row col cells) i j = pieceAt g i j := by
  intro cells
  induction cells with
  | nil => intro col g row i j hj; rfl
  | cons cell cells ih =>
    intro col g row i j hj
    cases cell with
    | none => exact ih (col + 1) g row i j hj
    | some p =>
      simp only [placeCells]
      rw [ih (col + 1) _ row i j hj]
      exact pieceAt_setPiece_ne g col row (some p) (fun hc => hj hc.2)

theorem placeCells_same_row_out : ∀ (cells : List (Option Piece)) (col : Nat)
    (g : Pieces) (row i : Nat), i < col →
    pieceAt (placeCells g row col cells) i row = pieceAt g i row := by
  intro cells
  induction cells with
  | nil => intro col g row i hi; rfl
  | cons cell cells ih =>
    intro col g row i hi
    cases cell with
    | none => exact ih (col + 1) g row i (by omega)
    | some p =>
      simp only [placeCells]
      rw [ih (col + 1) _ row i (by omega)]
      exact pieceAt_setPiece_ne g col row (some p) (fun hc => by omega)

theorem placeCells_same_row_in : ∀ (cells : List (Option Piece)) (col : Nat)
    {g : Pieces} (_ : WFg g) {row i : Nat}, row < 8 → col ≤ i →
    i < col + cells.length → col + cells.length ≤ 8 →
    pieceAt g i row = none →
    pieceAt (placeCells g row col cells) i row = cells.getD (i - col) none := by
  intro cells
  induction cells with
  | nil =>
    intro col g hg row i hrow hci hic h8 hnone
    simp at hic
    omega
  | cons cell cells ih =>
    intro col g hg row i hrow hci hic h8 hnone
    by_cases hieq : i = col
    · subst hieq
      have hsub : i - i = 0 := by omega
      rw [hsub, List.getD_cons_zero]
      cases cell with
      | none =>
        simp only [placeCells]
        rw [placeCells_same_row_out cells (i + 1) g row i (by omega)]
        exact hnone
      | some p =>
        simp only [placeCells]
        rw [placeCells_same_row_out cells (i + 1) _ row i (by omega)]
        exact pieceAt_setPiece_self_some hg (by simp only [List.length_cons] at h8; omega)
          hrow (some p)
    · have hlt : col < i := by omega
      have hsub : i - col = (i - (col + 1)) + 1 := by omega
      rw [hsub, List.getD_cons_succ]
      simp only [List.length_cons] at hic h8
      cases cell with
      | none =>
        exact ih (col + 1) hg hrow (by omega) (by omega) (by omega) hnone
      | some p =>
        refine ih (col + 1) (WFg_setPiece hg col row (some p)) hrow (by omega)
          (by omega) (by omega) ?_
        rw [pieceAt_setPiece_ne g col row (some p) (fun hc => by omega)]
        exact hnone

/-- Character facts about `piece_to_char` on an occupied square. -/
theorem piece_char_facts (p : Piece) :
    ¬ piece_to_char (some p) = ' ' ∧
    ¬ piece_to_char (some p) = '/' ∧
    (piece_to_char (some p)).isDigit = false ∧
    char_to_role (piece_to_char (some p)) = some p.piece_role ∧
    ((if (piece_to_char (some p)).isLower then PieceColor.Black
      else PieceColor.White) = p.piece_color) ∧
    isWs (piece_to_char (some p)) = false ∧
    ¬ piece_to_char (some p) = '1' := by
  obtain ⟨r, c⟩ := p
  cases r <;> cases c <;>
    exact ⟨by decide, by decide, by decide, by decide, by decide, by decide, by decide⟩

/-- Parsing the raw characters of a list of cells places exactly those
cells. -/
theorem parse_rank_raw : ∀ (cells : List (Option Piece)) (col : Nat) (g : Pieces)
    (row : Nat) (suffix : List Char), col + cells.length ≤ 8 →
    parsePlacement (cells.map piece_to_char ++ suffix) g row col
      = parsePlacement suffix (placeCells g row col cells) row (col + cells.length) := by
  intro cells
  induction cells with
  | nil =>
    intro col g row suffix h8
    simp [placeCells]
  | cons cell cells ih =>
    intro col g row suffix h8
    simp only [List.length_cons] at h8
    rw [List.map_cons, List.cons_append]
    cases cell with
    | none =>
      show parsePlacement ('1' :: (cells.map piece_to_char ++ suffix)) g row col = _
      simp only [parsePlacement]
      rw [if_neg (by decide), if_neg (by decide), if_pos (by decide)]
      have h1 : ('1' : Char).toNat - '0'.toNat = 1 := by decide
      rw [h1, ih (col + 1) g row suffix (by omega)]
      show _ = parsePlacement suffix (placeCells g row col (none :: cells)) row _
      simp only [placeCells]
      congr 1
      simp only [List.length_cons]
      omega
    | some p =>
      obtain ⟨hsp, hsl, hdig, hrole, hcol, -, -⟩ := piece_char_facts p
      simp only [parsePlacement]
      rw [if_neg hsp, if_neg hsl, if_neg (by rw [hdig]; simp), hrole]
      dsimp only
      rw [if_pos (by omega)]
      have hpc : Piece.mk p.piece_role
          (if (piece_to_char (some p)).isLower then PieceColor.Black
            else PieceColor.White) = p := by
        rw [hcol]
      rw [hpc, ih (col + 1) _ row suffix (by omega)]
      show _ = parsePlacement suffix (placeCells g row col (some p :: cells)) row _
      simp only [placeCells]
      congr 1
      simp only [List.length_cons]
      omega

/-- The cells of one rank of a board, files 0 to 7. -/
def rankCells (b : Board) (j : Nat) : List (Option Piece) :=
  (List.range 8).map fun i => pieceAt b.pieces i j

theorem rankChars_eq_map (b : Board) (j : Nat) :
    rankChars b j = (rankCells b j).map piece_to_char := by
  unfold rankChars rankCells
  rw [List.map_map]
  rfl

/-- The cumulative grid writes of parsing ranks `j` down to `0`. -/
def applyRanks (b : Board) : Pieces → Nat → Pieces
  | g, 0 => placeCells g 0 0 (rankCells b 0)
  | g, j + 1 => applyRanks b (placeCells g (j + 1) 0 (rankCells b (j + 1))) j

theorem rankCells_length (b : Board) (j : Nat) : (rankCells b j).length = 8 := by
  unfold rankCells
  rw [List.length_map, List.length_range]

/-- Parsing the raw joined ranks `j` down to `0` from row `j`, column 0,
accumulates exactly `applyRanks`. -/
theorem parse_ranks (b : Board) : ∀ j, j < 8 → ∀ g : Pieces,
    parsePlacement (joinRanks (((List.range (j + 1)).reverse).map fun jj => rankChars b jj))
      g j 0 = .ok (applyRanks b g j) := by
  intro j
  induction j with
  | zero =>
    intro hj g
    show parsePlacement (joinRanks [rankChars b 0]) g 0 0 = _
    show parsePlacement (rankChars b 0) g 0 0 = _
    rw [rankChars_eq_map]
    have h := parse_rank_raw (rankCells b 0) 0 g 0 []
      (by rw [rankCells_length])
    rw [List.append_nil] at h
    rw [h]
    rfl
  | succ j ih =>
    intro hj g
    have hrange : (List.range (j + 1 + 1)).reverse = (j + 1) :: (List.range (j + 1)).reverse := by
      rw [List.range_succ, List.reverse_append]
      rfl
    rw [hrange, List.map_cons]
    have hne : ((List.range (j + 1)).reverse).map (fun jj => rankChars b jj) ≠ [] := by
      simp [List.range_succ]
    obtain ⟨hd, tl, htl⟩ : ∃ hd tl,
        ((List.range (j + 1)).reverse).map (fun jj => rankChars b jj) = hd :: tl := by
      cases hq : ((List.range (j + 1)).reverse).map (fun jj => rankChars b jj) with
      | nil => exact absurd hq hne
      | cons hd tl => exact ⟨hd, tl, rfl⟩
    rw [htl]
    show parsePlacement (rankChars b (j + 1) ++ '/' :: joinRanks (hd :: tl)) g (j + 1) 0 = _
    rw [rankChars_eq_map]
    rw [parse_rank_raw (rankCells b (j + 1)) 0 g (j + 1) _
      (by rw [rankCells_length])]
    simp only [parsePlacement]
    rw [if_neg (show ¬ ('/' : Char) = ' ' by decide)]
    rw [if_pos trivial]
    rw [if_neg (show ¬ (j + 1 = 0) by omega)]
    simp only [Nat.add_sub_cancel]
    have h2 := ih (by omega) (placeCells g (j + 1) 0 (rankCells b (j + 1)))
    rw [htl] at h2
    rw [h2]
    rfl

theorem rankCells_getD (b : Board) (j i : Nat) (hi : i < 8) :
    (rankCells b j).getD i none = pieceAt b.pieces i j := by
  unfold rankCells
  rw [List.getD_eq_getElem?_getD, List.getElem?_map, List.getElem?_range hi]
  rfl

/-- `applyRanks` fills rows `0..j` with the board's pieces, keeps rows
above `j` intact, and preserves the grid shape. -/
theorem applyRanks_spec (b : Board) : ∀ j, j < 8 → ∀ g : Pieces, WFg g →
    (∀ i jj, jj ≤ j → pieceAt g i jj = none) →
    WFg (applyRanks b g j) ∧
    (∀ i jj, i < 8 → jj ≤ j →
      pieceAt (applyRanks b g j) i jj = pieceAt b.pieces i jj) ∧
    (∀ i jj, j < jj → pieceAt (applyRanks b g j) i jj = pieceAt g i jj) := by
  intro j
  induction j with
  | zero =>
    intro hj g hg hnone
    simp only [applyRanks]
    refine ⟨placeCells_WF _ 0 hg 0, ?_, ?_⟩
    · intro i jj hi hjj
      have hjj0 : jj = 0 := by omega
      subst hjj0
      rw [placeCells_same_row_in (rankCells b 0) 0 hg (by omega) (by omega)
        (by rw [rankCells_length]; omega) (by rw [rankCells_length])
        (hnone i 0 (by omega))]
      rw [Nat.sub_zero, rankCells_getD b 0 i hi]
    · intro i jj hjj
      exact placeCells_other_row (rankCells b 0) 0 g 0 i jj (by omega)
  | succ j ih =>
    intro hj g hg hnone
    have hg2 : WFg (placeCells g (j + 1) 0 (rankCells b (j + 1))) :=
      placeCells_WF _ 0 hg (j + 1)
    have hnone2 : ∀ i jj, jj ≤ j →
        pieceAt (placeCells g (j + 1) 0 (rankCells b (j + 1))) i jj = none := by
      intro i jj hjj
      rw [placeCells_other_row _ 0 g (j + 1) i jj (by omega)]
      exact hnone i jj (by omega)
    obtain ⟨ihWF, ihLow, ihHigh⟩ := ih (by omega) _ hg2 hnone2
    simp only [applyRanks]
    refine ⟨ihWF, ?_, ?_⟩
    · intro i jj hi hjj
      by_cases hle : jj ≤ j
      · exact ihLow i jj hi hle
      · have hjj1 : jj = j + 1 := by omega
        subst hjj1
        rw [ihHigh i (j + 1) (by omega)]
        rw [placeCells_same_row_in (rankCells b (j + 1)) 0 hg (by omega) (by omega)
          (by rw [rankCells_length]; omega) (by rw [rankCells_length])
          (hnone i (j + 1) (by omega))]
        rw [Nat.sub_zero, rankCells_getD b (j + 1) i hi]
    · intro i jj hjj
      rw [ihHigh i jj (by omega)]
      exact placeCells_other_row _ 0 g (j + 1) i jj (by omega)

/-- Two well-formed grids with the same cells are equal. -/
theorem grid_ext {g1 g2 : Pieces} (h1 : WFg g1) (h2 : WFg g2)
    (h : ∀ i j, i < 8 → j < 8 → pieceAt g1 i j = pieceAt g2 i j) : g1 = g2 := by
  have hl1 := h1.1
  have hl2 := h2.1
  refine List.ext_getElem? ?_
  intro n
  by_cases hn : n < 8
  · have hn1 : n < g1.length := by omega
    have hn2 : n < g2.length := by omega
    rw [List.getElem?_eq_getElem hn1, List.getElem?_eq_getElem hn2]
    refine congrArg _ (List.ext_getElem? ?_)
    intro m
    have hr1 : (g1[n]).length = 8 :=
      h1.2 _ (List.getElem?_mem (List.getElem?_eq_getElem hn1))
    have hr2 : (g2[n]).length = 8 :=
      h2.2 _ (List.getElem?_mem (List.getElem?_eq_getElem hn2))
    by_cases hm : m < 8
    · have hp := h n m hn hm
      unfold pieceAt at hp
      rw [List.getElem?_eq_getElem hn1, List.getElem?_eq_getElem hn2] at hp
      simp only [Option.some_bind] at hp
      rw [List.getElem?_eq_getElem (show m < (g1[n]).length by omega),
        List.getElem?_eq_getElem (show m < (g2[n]).length by omega)] at hp ⊢
      simp only [Option.getD_some] at hp
      rw [hp]
    · rw [List.getElem?_eq_none (by omega), List.getElem?_eq_none (by omega)]
  · rw [List.getElem?_eq_none (by omega), List.getElem?_eq_none (by omega)]

/-- Parsing the raw placement text of a well-formed board reconstructs its
grid. -/
theorem parse_placementRaw (b : Board) (hwf : Board.WF b) :
    parsePlacement (placementRaw b) Pieces.new 7 0 = .ok b.pieces := by
  unfold placementRaw
  rw [parse_ranks b 7 (by omega) Pieces.new]
  obtain ⟨hWF, hLow, -⟩ := applyRanks_spec b 7 (by omega) Pieces.new WFg_new
    (fun i jj _ => pieceAt_new i jj)
  refine congrArg _ (grid_ext hWF hwf ?_)
  intro i j hi hj
  exact hLow i j hi (by omega)

/-! ## FEN round trip (C7): character classes of the serialised fields -/

theorem digit_not_ws {c : Char} (h : c.isDigit = true) : isWs c = false := by
  cases hw : isWs c
  · rfl
  · exfalso
    unfold isWs at hw
    simp only [Bool.or_eq_true, beq_iff_eq] at hw
    rcases hw with ((rfl | rfl) | rfl) | rfl <;> exact absurd h (by decide)

/-- Each character of a compressed text comes from the text or is a
digit. -/
theorem compress_mem : ∀ n (s : List Char), s.length ≤ n →
    ∀ c ∈ compress s, c ∈ s ∨ c.isDigit = true := by
  intro n
  induction n with
  | zero =>
    intro s hs c hc
    have hnil : s = [] := List.eq_nil_of_length_eq_zero (by omega)
    subst hnil
    simp [compress, compressAux] at hc
  | succ n ih =>
    intro s hs c hc
    match s with
    | [] => simp [compress, compressAux] at hc
    | c0 :: rest =>
      by_cases h0 : c0 = '1'
      · subst h0
        rw [compress_cons_one, List.mem_append] at hc
        rcases hc with hc | hc
        · split at hc
          · exact Or.inr ((natToChars_spec _).2.1 c hc)
          · rw [List.mem_singleton] at hc
            subst hc
            exact Or.inl (List.mem_cons_self _ _)
        · have hdrop : (rest.dropWhile (fun d => d = '1')).length ≤ n := by
            have hd : (rest.dropWhile (fun d => d = '1')).length ≤ rest.length :=
              (List.dropWhile_sublist _).length_le
            simp only [List.length_cons] at hs
            omega
          rcases ih _ hdrop c hc with h | h
          · exact Or.inl (List.mem_cons_of_mem _ ((List.dropWhile_sublist _).subset h))
          · exact Or.inr h
      · rw [compress_cons_ne h0, List.mem_cons] at hc
        rcases hc with rfl | hc
        · exact Or.inl (List.mem_cons_self _ _)
        · have hrest : rest.length ≤ n := by
            simp only [List.length_cons] at hs
            omega
          rcases ih rest hrest c hc with h | h
          · exact Or.inl (List.mem_cons_of_mem _ h)
          · exact Or.inr h

theorem compress_ne_nil {s : List Char} (h : s ≠ []) : compress s ≠ [] := by
  cases s with
  | nil => exact absurd rfl h
  | cons c rest =>
    by_cases hc : c = '1'
    · subst hc
      rw [compress_cons_one]
      intro he
      rw [List.append_eq_nil] at he
      have h1 := he.1
      split at h1
      · exact (natToChars_spec _).1 h1
      · exact absurd h1 (by decide)
    · rw [compress_cons_ne hc]
      exact List.cons_ne_nil c _

theorem placementRaw_ne_nil (b : Board) : placementRaw b ≠ [] := by
  unfold placementRaw
  have h : (List.range 8).reverse = 7 :: (List.range 7).reverse := by decide
  rw [h, List.map_cons]
  cases h2 : ((List.range 7).reverse).map (fun jj => rankChars b jj) with
  | nil =>
    rw [show (List.range 7).reverse = 6 :: (List.range 6).reverse from by decide,
      List.map_cons] at h2
    exact absurd h2 (List.cons_ne_nil _ _)
  | cons hd tl =>
    show rankChars b 7 ++ '/' :: joinRanks (hd :: tl) ≠ []
    intro he
    rw [List.append_eq_nil] at he
    exact absurd he.2 (List.cons_ne_nil _ _)

/-- Each character of the joined ranks is a separator or a rank
character. -/
theorem joinRanks_mem : ∀ (rs : List (List Char)) (c : Char), c ∈ joinRanks rs →
    c = '/' ∨ ∃ r ∈ rs, c ∈ r := by
  intro rs
  induction rs with
  | nil => intro c hc; exact absurd hc (List.not_mem_nil c)
  | cons r rs ih =>
    intro c hc
    cases rs with
    | nil => exact Or.inr ⟨r, List.mem_cons_self r _, hc⟩
    | cons r2 rs2 =>
      have hj : joinRanks (r :: r2 :: rs2) = r ++ '/' :: joinRanks (r2 :: rs2) := rfl
      rw [hj, List.mem_append, List.mem_cons] at hc
      rcases hc with hc | hc | hc
      · exact Or.inr ⟨r, List.mem_cons_self r _, hc⟩
      · exact Or.inl hc
      · rcases ih c hc with h | ⟨r3, hr3, hcr3⟩
        · exact Or.inl h
        · exact Or.inr ⟨r3, List.mem_cons_of_mem _ hr3, hcr3⟩

theorem placementRaw_not_ws (b : Board) : ∀ c ∈ placementRaw b, isWs c = false := by
  intro c hc
  rcases joinRanks_mem _ c hc with rfl | ⟨r, hr, hcr⟩
  · decide
  · rw [List.mem_map] at hr
    obtain ⟨j, -, rfl⟩ := hr
    unfold rankChars at hcr
    rw [List.mem_map] at hcr
    obtain ⟨i, -, rfl⟩ := hcr
    cases hp : pieceAt b.pieces i j with
    | none => decide
    | some p => exact (piece_char_facts p).2.2.2.2.2.1

theorem compress_placement_not_ws (b : Board) :
    ∀ c ∈ compress (placementRaw b), isWs c = false := by
  intro c hc
  rcases compress_mem (placementRaw b).length _ (Nat.le_refl _) c hc with h | h
  · exact placementRaw_not_ws b c h
  · exact digit_not_ws h

/-! ## FEN round trip (C7): run bounds of the raw placement -/

theorem leadRun_le_length (l : List Char) : leadRun l ≤ l.length :=
  (List.takeWhile_sublist _).length_le

theorem leadRun_append_slash : ∀ (u z : List Char), leadRun (u ++ '/' :: z) ≤ u.length := by
  intro u z
  induction u with
  | nil =>
    show leadRun ('/' :: z) ≤ 0
    unfold leadRun
    rw [List.takeWhile_cons, if_neg (by decide)]
    simp
  | cons c u ih =>
    show leadRun (c :: (u ++ '/' :: z)) ≤ u.length + 1
    unfold leadRun at ih ⊢
    rw [List.takeWhile_cons]
    split
    · simp only [List.length_cons]
      omega
    · simp

/-- A suffix of an appended list is a suffix of the right part or extends
it by a suffix of the left part. -/
theorem suffix_append_cases : ∀ (u v t : List Char), t <:+ u ++ v →
    t <:+ v ∨ ∃ w, w <:+ u ∧ t = w ++ v := by
  intro u
  induction u with
  | nil =>
    intro v t ht
    exact Or.inl ht
  | cons c u ih =>
    intro v t ht
    rw [List.cons_append, List.suffix_cons_iff] at ht
    rcases ht with rfl | ht
    · exact Or.inr ⟨c :: u, List.suffix_refl _, rfl⟩
    · rcases ih v t ht with h | ⟨w, hw, rfl⟩
      · exact Or.inl h
      · exact Or.inr ⟨w, hw.trans ⟨[c], rfl⟩, rfl⟩

/-- Every `'1'`-run of ranks of length at most 8 joined by `/` is at most
8 long. -/
theorem joinRanks_runs : ∀ (rs : List (List Char)), (∀ r ∈ rs, r.length ≤ 8) →
    ∀ t, t <:+ joinRanks rs → leadRun t ≤ 8 := by
  intro rs
  induction rs with
  | nil =>
    intro h8 t ht
    have h1 := leadRun_le_length t
    have h2 : t.length ≤ 0 := ht.length_le
    omega
  | cons r rs ih =>
    intro h8 t ht
    cases rs with
    | nil =>
      have h1 := leadRun_le_length t
      have h2 : t.length ≤ r.length := ht.length_le
      have h3 := h8 r (List.mem_cons_self r [])
      omega
    | cons r2 rs2 =>
      have hj : joinRanks (r :: r2 :: rs2) = r ++ '/' :: joinRanks (r2 :: rs2) := rfl
      rw [hj] at ht
      rcases suffix_append_cases r ('/' :: joinRanks (r2 :: rs2)) t ht with ht2 | ⟨w, hw, rfl⟩
      · rcases List.suffix_cons_iff.mp ht2 with rfl | ht3
        · unfold leadRun
          rw [List.takeWhile_cons, if_neg (by decide)]
          simp
        · exact ih (fun rr hrr => h8 rr (List.mem_cons_of_mem _ hrr)) t ht3
      · have h1 := leadRun_append_slash w (joinRanks (r2 :: rs2))
        have h2 : w.length ≤ r.length := hw.length_le
        have h3 := h8 r (List.mem_cons_self r _)
        omega

theorem placementRaw_runs (b : Board) : ∀ t, t <:+ placementRaw b → leadRun t ≤ 8 := by
  intro t ht
  unfold placementRaw at ht
  refine joinRanks_runs _ ?_ t ht
  intro r hr
  rw [List.mem_map] at hr
  obtain ⟨j, -, rfl⟩ := hr
  simp [rankChars]

/-! ## FEN round trip (C7): the scalar fields -/

theorem active_facts (ac : PieceColor) :
    activeChars ac ≠ [] ∧ (∀ c ∈ activeChars ac, isWs c = false) ∧
    (if activeChars ac = ['w'] then PieceColor.White
     else if activeChars ac = ['b'] then PieceColor.Black
     else PieceColor.White) = ac := by
  cases ac <;> exact ⟨by decide, by decide, by decide⟩

theorem castling_facts (wk wq bks bqs : Bool) :
    castlingChars wk wq bks bqs ≠ [] ∧
    (∀ c ∈ castlingChars wk wq bks bqs, isWs c = false) ∧
    ((castlingChars wk wq bks bqs).contains 'K',
     (castlingChars wk wq bks bqs).contains 'Q',
     (castlingChars wk wq bks bqs).contains 'k',
     (castlingChars wk wq bks bqs).contains 'q') = (wk, wq, bks, bqs) := by
  cases wk <;> cases wq <;> cases bks <;> cases bqs <;>
    exact ⟨by decide, by decide, by decide⟩

theorem ep_file_char {f : Nat} (hf : f < 8) :
    (Char.ofNat ('a'.toNat + f)).toNat = 'a'.toNat + f ∧
    isWs (Char.ofNat ('a'.toNat + f)) = false ∧
    ¬ Char.ofNat ('a'.toNat + f) = '-' := by
  interval_cases f <;> exact ⟨by decide, by decide, by decide⟩

theorem ep_rank_char {r : Nat} (hr : r < 8) :
    (Char.ofNat ('1'.toNat + r)).isDigit = true ∧
    (Char.ofNat ('1'.toNat + r)).toNat = '1'.toNat + r ∧
    isWs (Char.ofNat ('1'.toNat + r)) = false := by
  interval_cases r <;> exact ⟨by decide, by decide, by decide⟩

/-! ## FEN round trip (C7): the main theorem -/

/-- C7: for every position whose fields are in canonical ranges (an 8×8
grid, and an en-passant target — if any — with file and rank in 0–7),
serialising to FEN and parsing the result reproduces the position exactly:
`read_fen (write_fen P) = .ok P`. -/
theorem C7_fen_round_trip (b : Board) (hwf : Board.WF b)
    (hep : ∀ f r, b.en_passant_target = some (f, r) → f < 8 ∧ r < 8) :
    read_fen (write_fen b) = .ok b := by
  obtain ⟨g, ac, ⟨wk, wq, bks, bqs⟩, ep, hm, fm⟩ := b
  have hmws : ∀ c ∈ natToChars hm, isWs c = false :=
    fun c hc => digit_not_ws ((natToChars_spec hm).2.1 c hc)
  have hfws : ∀ c ∈ natToChars fm, isWs c = false :=
    fun c hc => digit_not_ws ((natToChars_spec fm).2.1 c hc)
  cases ep with
  | none =>
    have hepws : ∀ c ∈ epChars none, isWs c = false := by
      intro c hc
      rw [show epChars none = ['-'] from rfl, List.mem_singleton] at hc
      subst hc
      decide
    have hepne : epChars (none : Option (Nat × Nat)) ≠ [] := by
      rw [show epChars none = ['-'] from rfl]
      exact List.cons_ne_nil _ _
    have hw : write_fen ⟨g, ac, (wk, wq, bks, bqs), none, hm, fm⟩
        = compress (placementRaw ⟨g, ac, (wk, wq, bks, bqs), none, hm, fm⟩)
          ++ ' ' :: activeChars ac ++ ' ' :: castlingChars wk wq bks bqs
          ++ ' ' :: epChars none ++ ' ' :: natToChars hm ++ ' ' :: natToChars fm := rfl
    have hsw := split_whitespace_six
      (compress_placement_not_ws ⟨g, ac, (wk, wq, bks, bqs), none, hm, fm⟩)
      (active_facts ac).2.1 (castling_facts wk wq bks bqs).2.1 hepws hmws hfws
      (compress_ne_nil (placementRaw_ne_nil _)) (active_facts ac).1
      (castling_facts wk wq bks bqs).1 hepne (natToChars_spec hm).1 (natToChars_spec fm).1
    rw [hw]
    unfold read_fen
    rw [hsw]
    show ((do
      let g2 ← parsePlacement
        (compress (placementRaw ⟨g, ac, (wk, wq, bks, bqs), none, hm, fm⟩)) Pieces.new 7 0
      Except.ok { pieces := g2,
                  active_color :=
                    (if activeChars ac = ['w'] then PieceColor.White
                     else if activeChars ac = ['b'] then PieceColor.Black
                     else PieceColor.White),
                  castling_availability :=
                    ((castlingChars wk wq bks bqs).contains 'K',
                     (castlingChars wk wq bks bqs).contains 'Q',
                     (castlingChars wk wq bks bqs).contains 'k',
                     (castlingChars wk wq bks bqs).contains 'q'),
                  en_passant_target := none,
                  halfmove := (parseNat (natToChars hm)).getD 0,
                  fullmove := (parseNat (natToChars fm)).getD 1 }) : Except Unit Board)
      = Except.ok ⟨g, ac, (wk, wq, bks, bqs), none, hm, fm⟩
    rw [parse_compress _ _ (Nat.le_refl _) (placementRaw_runs _),
      parse_placementRaw _ hwf, (active_facts ac).2.2,
      (castling_facts wk wq bks bqs).2.2, parseNat_natToChars hm, parseNat_natToChars fm]
    rfl
  | some fr =>
    obtain ⟨f, r⟩ := fr
    obtain ⟨hf, hr⟩ := hep f r rfl
    have hepws : ∀ c ∈ epChars (some (f, r)), isWs c = false := by
      intro c hc
      rw [show epChars (some (f, r))
          = [Char.ofNat ('a'.toNat + f), Char.ofNat ('1'.toNat + r)] from rfl] at hc
      rcases List.mem_cons.mp hc with rfl | hc
      · exact (ep_file_char hf).2.1
      · rw [List.mem_singleton] at hc
        subst hc
        exact (ep_rank_char hr).2.2
    have hepne : epChars (some (f, r)) ≠ [] := by
      rw [show epChars (some (f, r))
          = [Char.ofNat ('a'.toNat + f), Char.ofNat ('1'.toNat + r)] from rfl]
      exact List.cons_ne_nil _ _
    have hw : write_fen ⟨g, ac, (wk, wq, bks, bqs), some (f, r), hm, fm⟩
        = compress (placementRaw ⟨g, ac, (wk, wq, bks, bqs), some (f, r), hm, fm⟩)
          ++ ' ' :: activeChars ac ++ ' ' :: castlingChars wk wq bks bqs
          ++ ' ' :: epChars (some (f, r)) ++ ' ' :: natToChars hm
          ++ ' ' :: natToChars fm := rfl
    have hsw := split_whitespace_six
      (compress_placement_not_ws ⟨g, ac, (wk, wq, bks, bqs), some (f, r), hm, fm⟩)
      (active_facts ac).2.1 (castling_facts wk wq bks bqs).2.1 hepws hmws hfws
      (compress_ne_nil (placementRaw_ne_nil _)) (active_facts ac).1
      (castling_facts wk wq bks bqs).1 hepne (natToChars_spec hm).1 (natToChars_spec fm).1
    rw [hw]
    unfold read_fen
    rw [hsw]
    show ((do
      let g2 ← parsePlacement
        (compress (placementRaw ⟨g, ac, (wk, wq, bks, bqs), some (f, r), hm, fm⟩))
        Pieces.new 7 0
      if ([Char.ofNat ('a'.toNat + f), Char.ofNat ('1'.toNat + r)] : List Char) = ['-'] then
        Except.ok { pieces := g2,
                    active_color :=
                      (if activeChars ac = ['w'] then PieceColor.White
                       else if activeChars ac = ['b'] then PieceColor.Black
                       else PieceColor.White),
                    castling_availability :=
                      ((castlingChars wk wq bks bqs).contains 'K',
                       (castlingChars wk wq bks bqs).contains 'Q',
                       (castlingChars wk wq bks bqs).contains 'k',
                       (castlingChars wk wq bks bqs).contains 'q'),
                    en_passant_target := none,
                    halfmove := (parseNat (natToChars hm)).getD 0,
                    fullmove := (parseNat (natToChars fm)).getD 1 }
      else if (Char.ofNat ('1'.toNat + r)).isDigit then
        Except.ok { pieces := g2,
                    active_color :=
                      (if activeChars ac = ['w'] then PieceColor.White
                       else if activeChars ac = ['b'] then PieceColor.Black
                       else PieceColor.White),
                    castling_availability :=
                      ((castlingChars wk wq bks bqs).contains 'K',
                       (castlingChars wk wq bks bqs).contains 'Q',
                       (castlingChars wk wq bks bqs).contains 'k',
                       (castlingChars wk wq bks bqs).contains 'q'),
                    en_passant_target := some ((Char.ofNat ('a'.toNat + f)).toNat - 'a'.toNat,
                      (Char.ofNat ('1'.toNat + r)).toNat - '0'.toNat - 1),
                    halfmove := (parseNat (natToChars hm)).getD 0,
                    fullmove := (parseNat (natToChars fm)).getD 1 }
      else Except.error ()) : Except Unit Board)
      = Except.ok ⟨g, ac, (wk, wq, bks, bqs), some (f, r), hm, fm⟩
    have hne2 : ¬ ([Char.ofNat ('a'.toNat + f), Char.ofNat ('1'.toNat + r)] : List Char)
        = ['-'] := by simp
    simp only [if_neg hne2, if_pos (ep_rank_char hr).1]
    rw [(ep_file_char hf).1, (ep_rank_char hr).2.1, Nat.add_sub_cancel_left]
    have hse : ('1' : Char).toNat + r - ('0' : Char).toNat - 1 = r := by
      have e1 : ('1' : Char).toNat = 49 := rfl
      have e0 : ('0' : Char).toNat = 48 := rfl
      rw [e1, e0]
      omega
    rw [hse]
    rw [parse_compress _ _ (Nat.le_refl _) (placementRaw_runs _),
      parse_placementRaw _ hwf, (active_facts ac).2.2,
      (castling_facts wk wq bks bqs).2.2, parseNat_natToChars hm, parseNat_natToChars fm]
    rfl

theorem C7_fen_round_trip_witness :
    read_fen (write_fen c9Board) = Except.ok c9Board :=
  C7_fen_round_trip c9Board ⟨by decide, by decide⟩
    (by
      intro f r h
      have h2 : (some ((3 : Nat), (5 : Nat)) : Option (Nat × Nat)) = some (f, r) := h
      rw [Option.some_inj, Prod.mk.injEq] at h2
      omega)

end BevyChess
